import Mathlib

/-!
# Verification of the ockham code-scanning engine

A shallow embedding, in Lean 4, of the scanning/indexing engine of the
`ockham` repository: the TypeScript/JavaScript unit extractor
(`packages/codescan/src/scanners/typescriptScanner.ts`), the file collector
(`packages/codescan/src/fileCollector.ts`), the scan driver
(`packages/codescan/src/codeScan.ts`), the scan-result store
(`packages/desktop/src/main/infrastructure/codescanStore.ts`) and the
keyword lookup of the tests IPC handlers.

Source strings are embedded as `List Char` so that positional reasoning
(offsets, slices, line counting) is by plain list operations that mirror
the JavaScript string primitives used by the code.  The SHA-1 digest
(`crypto.createHash('sha1')`) is embedded as a parameter `h : Hash`; the
code applies it to a fully determined input string, and every theorem that
needs collision-freedom takes injectivity of `h` as a hypothesis.  The
TypeScript parser (`ts.createSourceFile`) is external to the repository,
so the abstract syntax tree it returns is embedded as an explicit tree
(`TsNode`) carrying exactly the node data the scanner reads: syntax kind,
`getStart`/`getEnd`/`getFullStart` offsets, the resolved declaration name
(`getNodeName` reads parser fields), and the leading comment ranges that
`ts.getLeadingCommentRanges` reports at the node's full start.
-/

namespace CodeScan

/-- File contents and path fragments, as character lists. -/
abbrev Str := List Char

/-- The digest function (`crypto.createHash('sha1')...digest('hex')`),
abstracted: it is applied to a fully determined input string. -/
abbrev Hash := Str → Str

/-- Split a string at every occurrence of a character satisfying `p`,
keeping empty pieces — the behaviour of JavaScript `String.split` with a
single-character (or single-class) separator. -/
def splitOnPred (p : Char → Bool) : Str → List Str
  | [] => [[]]
  | c :: cs =>
    let r := splitOnPred p cs
    if p c then [] :: r
    else
      match r with
      | [] => [[c]]
      | l :: ls => (c :: l) :: ls

/-- JavaScript `source.split('\n')`. -/
def splitLines (s : Str) : List Str := splitOnPred (fun c => c = '\n') s

/-- JavaScript `String.prototype.substring(a, b)` for `a ≤ b`
(character slice `[a, b)`). -/
def substring (s : Str) (a b : ℕ) : Str := (s.take b).drop a

/-- The TypeScript scanner's line terminators (`ts.isLineBreak`): LF, CR,
LINE SEPARATOR (U+2028) and PARAGRAPH SEPARATOR (U+2029). -/
def isTsLineBreak (c : Char) : Bool :=
  c = '\n' ∨ c = '\r' ∨ c = '\u2028' ∨ c = '\u2029'

/-- The positions just after each line break, scanning from offset `q` —
the tail of the `lineStarts` array computed by the TypeScript scanner's
`computeLineStarts` (the leading `0` entry is left implicit): a `"\r\n"`
pair counts as a single break, and a lone `'\r'`, a `'\n'`, U+2028 and
U+2029 each end a line. -/
def lineStartsAux : Str → ℕ → List ℕ
  | [], _ => []
  | '\r' :: '\n' :: rest, q => (q + 2) :: lineStartsAux rest (q + 2)
  | c :: rest, q =>
    if isTsLineBreak c then (q + 1) :: lineStartsAux rest (q + 1)
    else lineStartsAux rest (q + 1)

/-- The line-start positions of a source, past the implicit leading `0`. -/
def lineStarts (s : Str) : List ℕ := lineStartsAux s 0

/-- The 0-based line of character offset `p`, as computed by the TypeScript
API `getLineAndCharacterOfPosition`: the index of the greatest line start
at or before `p`, i.e. the number of line-break ends at or before `p`. -/
def lineOfPos (s : Str) (p : ℕ) : ℕ :=
  ((lineStarts s).filter (fun q => q ≤ p)).length

/-- The 0-based column of character offset `p`
(`getLineAndCharacterOfPosition`): the offset minus the greatest line
start at or before `p` (`0` stands in for the implicit first line
start). -/
def charOfPos (s : Str) (p : ℕ) : ℕ :=
  p - ((lineStarts s).filter (fun q => q ≤ p)).foldr max 0

/-- The number of lines of a source under the full TypeScript
line-terminator set — what the extractor's positions are measured
against. -/
def tsLineCount (s : Str) : ℕ := (lineStarts s).length + 1

/-- The source's `'\r'` characters all belong to `"\r\n"` pairs and no
U+2028/U+2029 occurs — exactly when the TypeScript line count agrees with
`source.split('\n').length`. -/
def noStrayTerminators : Str → Bool
  | [] => true
  | '\r' :: '\n' :: rest => noStrayTerminators rest
  | c :: rest =>
    if c = '\r' ∨ c = '\u2028' ∨ c = '\u2029' then false
    else noStrayTerminators rest

/-- The whitespace characters recognised by JavaScript `String.trim` that can
occur in source text. -/
def isWs (c : Char) : Bool :=
  c = ' ' ∨ c = '\t' ∨ c = '\n' ∨ c = '\r' ∨ c = '\x0b' ∨ c = '\x0c'

/-- JavaScript `String.prototype.trim`. -/
def jsTrim (s : Str) : Str :=
  ((s.dropWhile isWs).reverse.dropWhile isWs).reverse

/-- Lower-case a string (JavaScript `toLowerCase`, ASCII fragment). -/
def toLowerStr (s : Str) : Str := s.map Char.toLower

/-- JavaScript `String.prototype.includes`. -/
def containsSub (hay needle : Str) : Bool :=
  (List.range (hay.length + 1)).any (fun i => needle.isPrefixOf (hay.drop i))

/-! ## The extractor's data model (`packages/codescan/src/types.ts`) -/

/-- One extracted syntax unit (`SyntaxUnit` in `types.ts`). -/
structure SyntaxUnit where
  type : Str
  name : Str
  filePath : Str
  startLine : ℕ
  startColumn : ℕ
  endLine : ℕ
  endColumn : ℕ
  sha1 : Str
  deriving DecidableEq, Repr

/-- Scanner output (`ScanOutput` in `types.ts`). -/
structure ScanOutput where
  coveredLines : List ℕ
  syntaxUnits : List SyntaxUnit
  deriving DecidableEq, Repr

/-! ## The TypeScript AST, as far as the scanner reads it -/

/-- The syntax kinds the scanner distinguishes: the sixteen extracted kinds
of `shouldExtract`, and `other` for every remaining kind (tagged with the
name `ts.SyntaxKind[kind]` would yield). -/
inductive SyntaxKind where
  | classDeclaration
  | functionDeclaration
  | methodDeclaration
  | propertyDeclaration
  | constructorKind
  | getAccessor
  | setAccessor
  | interfaceDeclaration
  | typeAliasDeclaration
  | enumDeclaration
  | enumMember
  | variableStatement
  | importDeclaration
  | exportDeclaration
  | exportAssignment
  | arrowFunction
  | other (tag : Str)
  deriving DecidableEq, Repr

/-- `ts.SyntaxKind[node.kind]` — the string name of the kind. -/
def kindName : SyntaxKind → Str
  | .classDeclaration => "ClassDeclaration".toList
  | .functionDeclaration => "FunctionDeclaration".toList
  | .methodDeclaration => "MethodDeclaration".toList
  | .propertyDeclaration => "PropertyDeclaration".toList
  | .constructorKind => "Constructor".toList
  | .getAccessor => "GetAccessor".toList
  | .setAccessor => "SetAccessor".toList
  | .interfaceDeclaration => "InterfaceDeclaration".toList
  | .typeAliasDeclaration => "TypeAliasDeclaration".toList
  | .enumDeclaration => "EnumDeclaration".toList
  | .enumMember => "EnumMember".toList
  | .variableStatement => "VariableStatement".toList
  | .importDeclaration => "ImportDeclaration".toList
  | .exportDeclaration => "ExportDeclaration".toList
  | .exportAssignment => "ExportAssignment".toList
  | .arrowFunction => "ArrowFunction".toList
  | .other tag => tag

/-- `shouldExtract` (typescriptScanner.ts): whether a node of this kind
becomes a syntax unit. -/
def shouldExtract : SyntaxKind → Bool
  | .other _ => false
  | _ => true

/-- A comment range as reported by `ts.getLeadingCommentRanges`:
character offsets `[pos, endPos)` and whether it is a
`SingleLineCommentTrivia`. -/
structure CommentRange where
  pos : ℕ
  endPos : ℕ
  single : Bool
  deriving DecidableEq, Repr

/-- The data the scanner reads off one AST node.  `startPos` is
`node.getStart(sourceFile)`, `endPos` is `node.getEnd()`, `fullStart` is
`node.getFullStart()`; `nameText` is the identifier text `getNodeName`
resolves from the parser's name fields (`none` when unresolvable);
`leading` is what `ts.getLeadingCommentRanges(source, fullStart)`
returns. -/
structure NodeData where
  kind : SyntaxKind
  startPos : ℕ
  endPos : ℕ
  fullStart : ℕ
  nameText : Option Str
  leading : List CommentRange
  deriving Repr

mutual
/-- An AST node together with the children `ts.forEachChild` visits. -/
inductive TsNode where
  | mk (data : NodeData) (children : TsForest)
  deriving Repr
/-- A list of sibling AST nodes. -/
inductive TsForest where
  | nil
  | cons (hd : TsNode) (tl : TsForest)
  deriving Repr
end

/-- `getNodeName` (typescriptScanner.ts): the scanner reads the parser's
name field for each of the recognised node shapes. -/
def getNodeName (d : NodeData) : Option Str := d.nameText

/-- `extractUnit` (typescriptScanner.ts lines 118–143): positions are
converted to 1-based line/column, the hash digests the exact source slice
`source.substring(node.getStart(sourceFile), node.getEnd())`, and a
missing name falls back to `"<anonymous>"`. -/
def extractUnit (h : Hash) (src rel : Str) (d : NodeData) : SyntaxUnit :=
  let startLC := (lineOfPos src d.startPos, charOfPos src d.startPos)
  let endLC := (lineOfPos src d.endPos, charOfPos src d.endPos)
  let nodeText := substring src d.startPos d.endPos
  { type := kindName d.kind
    name := (getNodeName d).getD "<anonymous>".toList
    filePath := rel
    startLine := startLC.1 + 1
    startColumn := startLC.2 + 1
    endLine := endLC.1 + 1
    endColumn := endLC.2 + 1
    sha1 := h nodeText }

mutual
/-- `visitNode` (typescriptScanner.ts lines 63–86): extract the node when
`shouldExtract`, then recurse into every child.  The mutable
`coveredLines` set accumulates exactly the line ranges of the pushed
units, so it is recovered below by `coveredOf`. -/
def visitNode (h : Hash) (src rel : Str) : TsNode → List SyntaxUnit
  | .mk d cs =>
    (if shouldExtract d.kind then [extractUnit h src rel d] else []) ++
      visitForest h src rel cs
/-- The children traversal of `ts.forEachChild`. -/
def visitForest (h : Hash) (src rel : Str) : TsForest → List SyntaxUnit
  | .nil => []
  | .cons n t => visitNode h src rel n ++ visitForest h src rel t
end

/-- The lines a unit spans (`for line = startLine..endLine`). -/
def unitLineSet (u : SyntaxUnit) : Finset ℕ := Finset.Icc u.startLine u.endLine

/-- The covered-line set accumulated by pushing a list of units, each
marking `startLine..endLine`. -/
def coveredOf (us : List SyntaxUnit) : Finset ℕ :=
  us.foldr (fun u acc => unitLineSet u ∪ acc) ∅

/-- The dedup key `` `${range.pos}:${range.end}` `` of `extractComments`. -/
def commentKey (r : CommentRange) : Str :=
  (Nat.repr r.pos).toList ++ ":".toList ++ (Nat.repr r.endPos).toList

/-- The comment unit built for one unseen range in `extractComments`
(typescriptScanner.ts lines 208–225): the hash digests the exact comment
slice `source.substring(range.pos, range.end)`. -/
def commentUnitOf (h : Hash) (src rel : Str) (r : CommentRange) : SyntaxUnit :=
  { type := if r.single then "SingleLineComment".toList else "MultiLineComment".toList
    name := "<comment>".toList
    filePath := rel
    startLine := lineOfPos src r.pos + 1
    startColumn := charOfPos src r.pos + 1
    endLine := lineOfPos src r.endPos + 1
    endColumn := charOfPos src r.endPos + 1
    sha1 := h (substring src r.pos r.endPos) }

/-- The body of the `for (const range of leading)` loop of
`extractComments` (typescriptScanner.ts lines 200–231): skip ranges whose
key was seen, otherwise emit the comment unit. -/
def processLeading (h : Hash) (src rel : Str) :
    List CommentRange → List Str → List SyntaxUnit × List Str
  | [], seen => ([], seen)
  | r :: rs, seen =>
    if commentKey r ∈ seen then processLeading h src rel rs seen
    else
      let rest := processLeading h src rel rs (commentKey r :: seen)
      (commentUnitOf h src rel r :: rest.1, rest.2)

mutual
/-- `scanNodeComments` inside `extractComments`: process the node's leading
comment ranges, then recurse into every child, threading the `seen` set. -/
def scanNodeComments (h : Hash) (src rel : Str) :
    TsNode → List Str → List SyntaxUnit × List Str
  | .mk d cs, seen =>
    let own := processLeading h src rel d.leading seen
    let rest := scanForestComments h src rel cs own.2
    (own.1 ++ rest.1, rest.2)
/-- The children traversal of `scanNodeComments`. -/
def scanForestComments (h : Hash) (src rel : Str) :
    TsForest → List Str → List SyntaxUnit × List Str
  | .nil, seen => ([], seen)
  | .cons n t, seen =>
    let first := scanNodeComments h src rel n seen
    let rest := scanForestComments h src rel t first.2
    (first.1 ++ rest.1, rest.2)
end

/-- The blank-line filler unit of `extractBlankLines` (typescriptScanner.ts
lines 260–270): it spans exactly its line, and its hash input is the
sentinel `` `blank:${lineNum}` ``, not the line's text. -/
def blankUnitOf (h : Hash) (rel : Str) (lineNum : ℕ) (lineText : Str) : SyntaxUnit :=
  { type := "BlankLine".toList
    name := "<blank>".toList
    filePath := rel
    startLine := lineNum
    startColumn := 1
    endLine := lineNum
    endColumn := lineText.length + 1
    sha1 := h ("blank:".toList ++ (Nat.repr lineNum).toList) }

/-- The loop of `extractBlankLines` (typescriptScanner.ts lines 253–274):
for each line (1-based index `i + 1`), skip it when already covered,
otherwise emit a `BlankLine` unit when its trimmed text is empty and add
its line to the covered set. -/
def blankLinesAux (h : Hash) (rel : Str) :
    List Str → ℕ → Finset ℕ → List SyntaxUnit × Finset ℕ
  | [], _, covered => ([], covered)
  | lineText :: rest, i, covered =>
    let lineNum := i + 1
    if lineNum ∈ covered then blankLinesAux h rel rest (i + 1) covered
    else if jsTrim lineText = [] then
      let res := blankLinesAux h rel rest (i + 1) (insert lineNum covered)
      (blankUnitOf h rel lineNum lineText :: res.1, res.2)
    else blankLinesAux h rel rest (i + 1) covered

/-- `extractBlankLines` (typescriptScanner.ts lines 243–275). -/
def extractBlankLines (h : Hash) (src rel : Str) (covered : Finset ℕ) :
    List SyntaxUnit × Finset ℕ :=
  blankLinesAux h rel (splitLines src) 0 covered

/-- `typescriptScanner.scan` (typescriptScanner.ts lines 12–57): the three
passes — AST walk, comments, blank lines — share one covered-line set, and
the output lines are the sorted set. -/
def scan (h : Hash) (root : TsNode) (src rel : Str) : ScanOutput :=
  let declUnits := visitNode h src rel root
  let covered1 := coveredOf declUnits
  let commentUnits := (scanNodeComments h src rel root []).1
  let covered2 := covered1 ∪ coveredOf commentUnits
  let blanks := extractBlankLines h src rel covered2
  { coveredLines := blanks.2.sort (· ≤ ·)
    syntaxUnits := declUnits ++ commentUnits ++ blanks.1 }

/-! ## The file collector (`packages/codescan/src/fileCollector.ts`)

The npm `ignore` library is external to the repository; an `Ignore`
instance is embedded as the predicate it denotes, and `ignore().add` of a
second instance as predicate disjunction.  The filesystem is embedded as
an explicit tree: `FSTree.unreadable` is a directory on which
`fs.readdirSync` throws, a `file` with `none` content is one on which
`fs.readFileSync` throws, and each readable directory carries the
`Ignore` predicate its `.gitignore` denotes (`createIgnoreForDir`: a
missing or unreadable `.gitignore` denotes no rules). -/

/-- An npm `ignore` matcher, by the predicate it denotes. -/
structure Ignore where
  ignores : Str → Bool

/-- `ignore().add(a).add(b)`: a path is ignored when either rule set
ignores it. -/
def Ignore.merge (a b : Ignore) : Ignore :=
  ⟨fun p => a.ignores p || b.ignores p⟩

/-- `ignore()` with no rules. -/
def emptyIgnore : Ignore := ⟨fun _ => false⟩

/-- The three directory names `collectFiles` always excludes. -/
def alwaysIgnoredNames : List Str :=
  [".git".toList, "node_modules".toList, ".ockham".toList]

/-- `ignore().add(['.git', 'node_modules', '.ockham'])`: under gitignore
pattern semantics each bare name matches a path segment at any depth. -/
def alwaysIgnore : Ignore :=
  ⟨fun p => (splitOnPred (fun c => c = '/') p).any
    (fun seg => alwaysIgnoredNames.contains seg)⟩

mutual
/-- A directory as the collector sees it. -/
inductive FSTree where
  | unreadable
  | dir (localIgnore : Ignore) (entries : FSList)
/-- The entries `fs.readdirSync` lists. -/
inductive FSList where
  | nil
  | cons (e : FSEntry) (t : FSList)
/-- One directory entry. -/
inductive FSEntry where
  | file (name : Str) (content : Option Str)
  | subdir (name : Str) (t : FSTree)
end

/-- A collected file (the `CollectedFile` record of fileCollector.ts).
`content` records what `fs.readFileSync(absolutePath)` returned — the
collector counts its lines, and `runCodeScan` re-reads the same path. -/
structure CollectedFile where
  relativePath : Str
  absolutePath : Str
  totalLines : ℕ
  content : Str
  deriving DecidableEq, Repr

/-- `path.join(dir, name)` as used on already-clean segments. -/
def pathJoin (dir name : Str) : Str := dir ++ "/".toList ++ name

/-- `` relativeTo ? `${relativeTo}/${name}` : name ``. -/
def relJoin (relativeTo name : Str) : Str :=
  if relativeTo = [] then name else relativeTo ++ "/".toList ++ name

/-- JavaScript `relPath.endsWith('/')`. -/
def endsWithSlash (p : Str) : Bool := p.getLast? = some '/'

mutual
/-- `walkDirectory` (fileCollector.ts lines 49–104): `fs.readdirSync` in a
`try`/`catch` whose handler just returns, then the local `.gitignore` is
merged with the inherited rules and each entry is processed. -/
def walkDirectory (currentDir relativeTo : Str) (parentIgnore alwaysIg : Ignore) :
    FSTree → List CollectedFile
  | .unreadable => []
  | .dir localIgnore entries =>
    let combined := parentIgnore.merge localIgnore
    walkEntries currentDir relativeTo combined alwaysIg entries
/-- The `for (const entry of entries)` loop of `walkDirectory`. -/
def walkEntries (currentDir relativeTo : Str) (combined alwaysIg : Ignore) :
    FSList → List CollectedFile
  | .nil => []
  | .cons e rest =>
    walkEntry currentDir relativeTo combined alwaysIg e ++
      walkEntries currentDir relativeTo combined alwaysIg rest
/-- One iteration of the entry loop (fileCollector.ts lines 70–102).  For a
file, the always-ignore branch cannot `continue` (its inner condition
requires `entry.isDirectory()`), so only the combined `.gitignore` check
filters, and an unreadable file is skipped by the `try`/`catch`.  For a
directory, the `continue` fires exactly when the always-ignore matcher
accepts `` `${relPath}/` `` and the entry name is one of the three fixed
names; otherwise the combined check applies and the walk recurses. -/
def walkEntry (currentDir relativeTo : Str) (combined alwaysIg : Ignore) :
    FSEntry → List CollectedFile
  | .file name content =>
    let relPath := relJoin relativeTo name
    if combined.ignores relPath then []
    else
      match content with
      | some c =>
        [{ relativePath := relPath
           absolutePath := pathJoin currentDir name
           totalLines := (splitLines c).length
           content := c }]
      | none => []
  | .subdir name t =>
    let relPath := relJoin relativeTo name
    let dirProbe := if endsWithSlash relPath then relPath else relPath ++ "/".toList
    if alwaysIg.ignores dirProbe &&
        (name = ".git".toList || name = "node_modules".toList || name = ".ockham".toList) then
      []
    else if combined.ignores relPath then []
    else walkDirectory (pathJoin currentDir name) relPath combined alwaysIg t
end

/-- The root's own `.gitignore` rules (`createIgnoreForDir(workspacePath)`);
when the root is missing or unreadable the `.gitignore` probe finds
nothing, denoting no rules. -/
def rootLocalIgnore : FSTree → Ignore
  | .unreadable => emptyIgnore
  | .dir ig _ => ig

/-- `collectFiles` (fileCollector.ts lines 18–31). -/
def collectFiles (workspacePath : Str) (root : FSTree) : List CollectedFile :=
  walkDirectory workspacePath [] (rootLocalIgnore root) alwaysIgnore root

/-! ## The scan driver (`packages/codescan/src/codeScan.ts`) -/

/-- A per-file entry of the scan result (`FileEntry` in `types.ts`).
`coveragePercent` is embedded in `ℚ`. -/
structure FileEntry where
  filePath : Str
  totalLines : ℕ
  coveredLines : List ℕ
  coveragePercent : ℚ
  syntaxUnits : List SyntaxUnit
  deriving DecidableEq, Repr

/-- The workspace-level result (`ScanResult` in `types.ts`). -/
structure ScanResult where
  workspacePath : Str
  scannedAt : Str
  totalFiles : ℕ
  files : List FileEntry
  deriving DecidableEq, Repr

/-- The parser oracle: `ts.createSourceFile(absolutePath, source, …)`,
a function of the path (which fixes the script kind) and the source. -/
abbrev Parse := Str → Str → TsNode

/-- The extensions of the single registered scanner
(`typescriptScanner.extensions`); `extensionMap.get ext` succeeds exactly
on these. -/
def tsExtensions : List Str :=
  ["ts".toList, "tsx".toList, "js".toList, "jsx".toList,
   "mts".toList, "cts".toList, "mjs".toList, "cjs".toList]

/-- `path.extname(p).slice(1).toLowerCase()`: the part of the last path
segment after its last dot — empty when the segment has no dot past its
first character. -/
def extOf (p : Str) : Str :=
  let base := ((splitOnPred (fun c => c = '/') p).getLast?).getD []
  match base with
  | [] => []
  | _ :: brest =>
    if brest.contains '.' then
      toLowerStr (((splitOnPred (fun c => c = '.') brest).getLast?).getD [])
    else []

/-- JavaScript `Math.round` (half rounds toward `+∞`). -/
def jsRound (q : ℚ) : ℤ := ⌊q + 1 / 2⌋

/-- The coverage computation shared by `runCodeScan` and `scanSingleFile`:
`totalLines > 0 ? Math.round((coveredCount / totalLines) * 10000) / 100 : 0`. -/
def coveragePercentOf (coveredCount totalLines : ℕ) : ℚ :=
  if totalLines > 0 then
    ((jsRound ((coveredCount : ℚ) / (totalLines : ℚ) * 10000) : ℚ)) / 100
  else 0

/-- The body of the `collectedFiles.map` in `runCodeScan` (codeScan.ts):
no registered scanner yields a zero-coverage entry; otherwise the file is
read again and scanned. -/
def scanCollectedFile (h : Hash) (parse : Parse) (f : CollectedFile) : FileEntry :=
  let ext := extOf f.relativePath
  if tsExtensions.contains ext then
    let source := f.content
    let output := scan h (parse f.absolutePath source) source f.relativePath
    { filePath := f.relativePath
      totalLines := f.totalLines
      coveredLines := output.coveredLines
      coveragePercent := coveragePercentOf output.coveredLines.length f.totalLines
      syntaxUnits := output.syntaxUnits }
  else
    { filePath := f.relativePath
      totalLines := f.totalLines
      coveredLines := []
      coveragePercent := 0
      syntaxUnits := [] }

/-- The filesystem effects `runCodeScan` performs besides collection:
whether the `/tmp/ockham-codescan` clean/recreate/write succeeds and
whether the `{workspace}/.ockham` mkdir/write succeeds. -/
structure IOEnv where
  workspacePath : Str
  root : FSTree
  tmpWritable : Bool
  durableWritable : Bool

/-- The exceptions the embedded operations can propagate: filesystem
failures, and the `TypeError` the lookup filter throws when the alias
table's object-literal index hits an inherited `Object.prototype`
member. -/
inductive IOError where
  | tmpWriteFailed
  | durableWriteFailed
  | fileUnreadable
  | typeError
  deriving DecidableEq, Repr

/-- `runCodeScan` (codeScan.ts lines 252–318): clean the tmp directory,
collect, scan every collected file, build the result, write it to
`/tmp/ockham-codescan/codescan-result.json` and then to
`{workspace}/.ockham/codescan-result.json`, and return it.  Every
filesystem failure outside the collector propagates as a thrown
exception, so a failed durable write aborts before the `return`. -/
def runCodeScan (h : Hash) (parse : Parse) (env : IOEnv) (now : Str) :
    Except IOError ScanResult :=
  if !env.tmpWritable then .error .tmpWriteFailed
  else
    let collected := collectFiles env.workspacePath env.root
    let files := collected.map (scanCollectedFile h parse)
    let result : ScanResult :=
      { workspacePath := env.workspacePath
        scannedAt := now
        totalFiles := files.length
        files := files }
    if !env.tmpWritable then .error .tmpWriteFailed
    else if !env.durableWritable then .error .durableWriteFailed
    else .ok result

/-- Resolve a relative path's segments in the tree: `none` when
`fs.existsSync` is false, `some none` for a file `fs.readFileSync`
throws on, `some (some content)` for a readable file. -/
def findEntry : FSList → Str → Option FSEntry
  | .nil, _ => none
  | .cons e t, name =>
    match e with
    | .file n c => if n = name then some (.file n c) else findEntry t name
    | .subdir n s => if n = name then some (.subdir n s) else findEntry t name

/-- Walk the segment list down the tree. -/
def resolvePath : List Str → FSTree → Option (Option Str)
  | _, .unreadable => none
  | [], .dir _ _ => none
  | [name], .dir _ entries =>
    match findEntry entries name with
    | some (.file _ c) => some c
    | _ => none
  | name :: rest, .dir _ entries =>
    match findEntry entries name with
    | some (.subdir _ t) => resolvePath rest t
    | _ => none

/-- `scanSingleFile` (codeScan.ts lines 177–215): `null` when the file
does not exist; a zero-coverage entry when no scanner is registered for
its extension; otherwise the scanner output with the coverage
computation.  `totalLines` is `source.split('\n').length`. -/
def scanSingleFile (h : Hash) (parse : Parse) (root : FSTree)
    (workspacePath relativePath : Str) : Except IOError (Option FileEntry) :=
  let absolutePath := pathJoin workspacePath relativePath
  match resolvePath (splitOnPred (fun c => c = '/') relativePath) root with
  | none => .ok none
  | some none => .error .fileUnreadable
  | some (some source) =>
    let ext := extOf relativePath
    let totalLines := (splitLines source).length
    if tsExtensions.contains ext then
      let output := scan h (parse absolutePath source) source relativePath
      .ok (some
        { filePath := relativePath
          totalLines := totalLines
          coveredLines := output.coveredLines
          coveragePercent := coveragePercentOf output.coveredLines.length totalLines
          syntaxUnits := output.syntaxUnits })
    else
      .ok (some
        { filePath := relativePath
          totalLines := totalLines
          coveredLines := []
          coveragePercent := 0
          syntaxUnits := [] })

/-! ## The scan-result store (`codescanStore.ts`) -/

/-- The process-wide cache `Map<string, ScanResult>` keyed by workspace
path. -/
def Cache := Str → Option ScanResult

/-- The empty cache. -/
def emptyCache : Cache := fun _ => none

/-- `cache.set(key, value)` (also standing for an in-place mutation of the
cached object). -/
def Cache.put (c : Cache) (k : Str) (v : ScanResult) : Cache :=
  fun x => if x = k then some v else c x

/-- `executeScan` (codescanStore.ts lines 10–14): run the full scan and
cache the result; an exception propagates before `cache.set`. -/
def executeScan (h : Hash) (parse : Parse) (env : IOEnv) (now : Str) (c : Cache) :
    Except IOError (Cache × ScanResult) :=
  match runCodeScan h parse env now with
  | .error e => .error e
  | .ok r => .ok (c.put env.workspacePath r, r)

/-- The merge step of `scanFile` (codescanStore.ts lines 34–43):
replace-in-place when `findIndex` hits, else append and set
`totalFiles = files.length`; the timestamp is refreshed either way. -/
def mergeFileEntry (result : ScanResult) (relativePath : Str) (fe : FileEntry)
    (now : Str) : ScanResult :=
  match result.files.findIdx? (fun f => f.filePath = relativePath) with
  | some idx =>
    { result with files := result.files.set idx fe, scannedAt := now }
  | none =>
    { result with
        files := result.files ++ [fe]
        totalFiles := (result.files ++ [fe]).length
        scannedAt := now }

/-- `scanFile` (codescanStore.ts lines 28–56): rescan one file, then merge
into the cached result, synthesizing a minimal one-file result when the
workspace has no cache entry. -/
def scanFile (h : Hash) (parse : Parse) (root : FSTree) (ws relativePath now : Str)
    (c : Cache) : Except IOError (Cache × Option FileEntry) :=
  match scanSingleFile h parse root ws relativePath with
  | .error e => .error e
  | .ok none => .ok (c, none)
  | .ok (some fe) =>
    match c ws with
    | some result =>
      .ok (c.put ws (mergeFileEntry result relativePath fe now), some fe)
    | none =>
      .ok (c.put ws
        { workspacePath := ws, scannedAt := now, totalFiles := 1, files := [fe] },
        some fe)

/-! ## The keyword lookup (TESTS_LOOKUP_UNIT / SPEC_TESTS_LOOKUP_UNIT) -/

/-- The fixed `keywordTypeAliases` table of the lookup handlers. -/
def keywordTypeAliases : List (Str × List Str) :=
  [("const".toList, ["variable".toList]),
   ("let".toList, ["variable".toList]),
   ("var".toList, ["variable".toList]),
   ("function".toList, ["function".toList, "arrowfunction".toList]),
   ("class".toList, ["class".toList]),
   ("interface".toList, ["interface".toList]),
   ("type".toList, ["typealias".toList]),
   ("enum".toList, ["enum".toList]),
   ("export".toList, [])]

/-- Lookup of `t` among the table's own (declared) keys. -/
def aliasLookup (t : Str) : Option (List Str) :=
  (keywordTypeAliases.find? (fun kv => kv.1 = t)).map (fun kv => kv.2)

/-- The outcome of the JavaScript property read `keywordTypeAliases[t]`
on the object literal: an own declared key yields its alias list;
otherwise the read walks the prototype chain, and the two all-lowercase
`Object.prototype` member names — `"constructor"` (the inherited
constructor function) and `"__proto__"` (the prototype object) — yield a
truthy non-array value; every other absent key yields `undefined`. -/
inductive AliasHit where
  | own (aliases : List Str)
  | inherited
  | absent
  deriving DecidableEq, Repr

/-- `keywordTypeAliases[t]` with JavaScript object-index semantics. -/
def aliasIndex (t : Str) : AliasHit :=
  match aliasLookup t with
  | some aliases => .own aliases
  | none =>
    if t = "constructor".toList ∨ t = "__proto__".toList then .inherited
    else .absent

/-- `` keyword.toLowerCase().split(/\s+/).filter(Boolean) ``. -/
def tokenize (keyword : Str) : List Str :=
  (splitOnPred isWs (toLowerStr keyword)).filter (fun t => t ≠ [])

/-- The per-token test of the lookup filter, as it behaves when the alias
read does not reach the prototype chain: a literal hit in the lowercased
`` `${u.type} ${u.name}` `` haystack, else the own alias entry — an empty
alias list matches unconditionally, a nonempty one requires some alias to
occur in the lowercased type — else no match. -/
def tokenMatches (u : SyntaxUnit) (t : Str) : Bool :=
  let haystack := toLowerStr (u.type ++ " ".toList ++ u.name)
  if containsSub haystack t then true
  else
    match aliasLookup t with
    | some aliases =>
      if aliases.isEmpty then true
      else aliases.any (fun a => containsSub (toLowerStr u.type) a)
    | none => false

/-- The per-token test of the lookup filter with full JavaScript
semantics: when the haystack check fails and `keywordTypeAliases[t]`
yields an inherited `Object.prototype` member, the value is truthy, its
`length` is not `0`, and `aliases.some` is not a function — the filter
throws a `TypeError`. -/
def tokenMatchesE (u : SyntaxUnit) (t : Str) : Except IOError Bool :=
  let haystack := toLowerStr (u.type ++ " ".toList ++ u.name)
  if containsSub haystack t then .ok true
  else
    match aliasIndex t with
    | .own aliases =>
      if aliases.isEmpty then .ok true
      else .ok (aliases.any (fun a => containsSub (toLowerStr u.type) a))
    | .inherited => .error .typeError
    | .absent => .ok false

/-- `tokens.every((t) => ...)` for one unit: tokens in order, stopping at
the first non-match or thrown error. -/
def everyTokenMatchesE (u : SyntaxUnit) : List Str → Except IOError Bool
  | [] => .ok true
  | t :: ts =>
    match tokenMatchesE u t with
    | .error e => .error e
    | .ok false => .ok false
    | .ok true => everyTokenMatchesE u ts

/-- `syntaxUnits.filter(...)`: units in order; a throw from the predicate
aborts the whole filter. -/
def filterUnitsE (tokens : List Str) : List SyntaxUnit → Except IOError (List SyntaxUnit)
  | [] => .ok []
  | u :: us =>
    match everyTokenMatchesE u tokens with
    | .error e => .error e
    | .ok b =>
      match filterUnitsE tokens us with
      | .error e => .error e
      | .ok rest => .ok (if b then u :: rest else rest)

/-- The pure part of the lookup handlers (part of `registerTestsHandlers`
and `registerSpecTestsHandlers`): tokenize, return `[]` on zero tokens,
else keep the units every token matches — throwing when a token's alias
read hits the prototype chain on a unit that failed the haystack check. -/
def lookupUnitsE (fe : FileEntry) (keyword : Str) : Except IOError (List SyntaxUnit) :=
  let tokens := tokenize keyword
  if tokens.isEmpty then .ok []
  else filterUnitsE tokens fe.syntaxUnits

/-- The whole `TESTS_LOOKUP_UNIT` handler body after workspace resolution:
scan the single file through the store, then filter its units; a thrown
`TypeError` rejects the handler's promise like any other exception. -/
def testsLookupUnit (h : Hash) (parse : Parse) (root : FSTree)
    (ws filePath keyword now : Str) (c : Cache) :
    Except IOError (Cache × List SyntaxUnit) :=
  match scanFile h parse root ws filePath now c with
  | .error e => .error e
  | .ok (c', none) => .ok (c', [])
  | .ok (c', some fe) =>
    match lookupUnitsE fe keyword with
    | .error e => .error e
    | .ok us => .ok (c', us)

/-! ## Basic facts about the string primitives -/

theorem splitOnPred_ne_nil (p : Char → Bool) (s : Str) : splitOnPred p s ≠ [] := by
  cases s with
  | nil => simp [splitOnPred]
  | cons c cs =>
    simp only [splitOnPred]
    split
    · simp
    · match h : splitOnPred p cs with
      | [] => simp
      | l :: ls => simp

theorem splitOnPred_length (p : Char → Bool) (s : Str) :
    (splitOnPred p s).length = s.countP p + 1 := by
  induction s with
  | nil => simp [splitOnPred]
  | cons c cs ih =>
    rcases h : splitOnPred p cs with _ | ⟨l, ls⟩
    · exact absurd h (splitOnPred_ne_nil p cs)
    · rw [h] at ih
      by_cases hp : p c
      · simp [splitOnPred, hp, h, List.countP_cons, ← ih]
      · simp [splitOnPred, hp, h, List.countP_cons]
        simp only [List.length_cons] at ih
        omega

theorem splitLines_length (s : Str) :
    (splitLines s).length = s.countP (fun c => c = '\n') + 1 :=
  splitOnPred_length _ s

theorem splitLines_length_pos (s : Str) : 1 ≤ (splitLines s).length := by
  rw [splitLines_length]; omega

theorem lineOfPos_lt_tsLineCount (s : Str) (p : ℕ) :
    lineOfPos s p + 1 ≤ tsLineCount s := by
  unfold lineOfPos tsLineCount
  have := List.length_filter_le (fun q => decide (q ≤ p)) (lineStarts s)
  omega

theorem lineStartsAux_cons_other (c : Char) (rest : Str) (q : ℕ)
    (hnp : ¬(c = '\r' ∧ ∃ rest2, rest = '\n' :: rest2)) :
    lineStartsAux (c :: rest) q =
      if isTsLineBreak c then (q + 1) :: lineStartsAux rest (q + 1)
      else lineStartsAux rest (q + 1) := by
  rw [lineStartsAux.eq_def]
  split
  · simp_all
  · exfalso
    rename_i rest2 heq
    rw [List.cons.injEq] at heq
    exact hnp ⟨heq.1, rest2, heq.2⟩
  · rename_i hfn heq
    rw [List.cons.injEq] at heq
    obtain ⟨rfl, rfl⟩ := heq
    rfl

theorem noStrayTerminators_cons_other (c : Char) (rest : Str)
    (hnp : ¬(c = '\r' ∧ ∃ rest2, rest = '\n' :: rest2)) :
    noStrayTerminators (c :: rest) =
      if c = '\r' ∨ c = '\u2028' ∨ c = '\u2029' then false
      else noStrayTerminators rest := by
  rw [noStrayTerminators.eq_def]
  split
  · simp_all
  · exfalso
    rename_i rest2 heq
    rw [List.cons.injEq] at heq
    exact hnp ⟨heq.1, rest2, heq.2⟩
  · rename_i hfn heq
    rw [List.cons.injEq] at heq
    obtain ⟨rfl, rfl⟩ := heq
    rfl

theorem countLF_le_lineStartsAux (s : Str) (q : ℕ) :
    s.countP (fun c => c = '\n') ≤ (lineStartsAux s q).length := by
  induction s, q using lineStartsAux.induct with
  | case1 q => simp [lineStartsAux]
  | case2 rest q ih =>
    simp only [lineStartsAux, List.countP_cons, List.length_cons]
    have h1 : ¬(('\r' : Char) = '\n') := by decide
    simp [h1]
    omega
  | case3 c rest q hfn hbrk ih =>
    have hnp : ¬(c = '\r' ∧ ∃ rest2, rest = '\n' :: rest2) := by
      rintro ⟨hc, rest2, hr⟩
      exact hfn rest2 hc hr
    rw [lineStartsAux_cons_other c rest q hnp, if_pos hbrk]
    simp only [List.countP_cons, List.length_cons, decide_eq_true_eq]
    by_cases hlf : c = '\n' <;> simp [hlf] <;> omega
  | case4 c rest q hfn hbrk ih =>
    have hnp : ¬(c = '\r' ∧ ∃ rest2, rest = '\n' :: rest2) := by
      rintro ⟨hc, rest2, hr⟩
      exact hfn rest2 hc hr
    rw [lineStartsAux_cons_other c rest q hnp, if_neg hbrk]
    have hlf : ¬(c = '\n') := fun hx => hbrk (by simp [isTsLineBreak, hx])
    simp only [List.countP_cons, decide_eq_true_eq]
    simp [hlf]
    omega

theorem splitLines_length_le_tsLineCount (s : Str) :
    (splitLines s).length ≤ tsLineCount s := by
  rw [splitLines_length]
  unfold tsLineCount lineStarts
  have := countLF_le_lineStartsAux s 0
  omega

theorem lineStartsAux_length_of_noStray (s : Str) (q : ℕ)
    (hns : noStrayTerminators s = true) :
    (lineStartsAux s q).length = s.countP (fun c => c = '\n') := by
  induction s, q using lineStartsAux.induct with
  | case1 q => simp [lineStartsAux]
  | case2 rest q ih =>
    have hns' : noStrayTerminators rest = true := hns
    simp only [lineStartsAux, List.countP_cons, List.length_cons]
    have h1 : ¬(('\r' : Char) = '\n') := by decide
    simp [h1, ih hns']
  | case3 c rest q hfn hbrk ih =>
    have hnp : ¬(c = '\r' ∧ ∃ rest2, rest = '\n' :: rest2) := by
      rintro ⟨hc, rest2, hr⟩
      exact hfn rest2 hc hr
    rw [noStrayTerminators_cons_other c rest hnp] at hns
    have hgood : ¬(c = '\r' ∨ c = '\u2028' ∨ c = '\u2029') := by
      intro hx
      rw [if_pos (by simpa using hx)] at hns
      cases hns
    rw [if_neg (by simpa using hgood)] at hns
    have hlf : c = '\n' := by
      simp only [isTsLineBreak, Bool.or_eq_true, decide_eq_true_eq] at hbrk
      rcases hbrk with h | h | h | h
      · exact h
      all_goals exact absurd (by simp [h]) hgood
    rw [lineStartsAux_cons_other c rest q hnp, if_pos hbrk]
    simp only [List.countP_cons, List.length_cons, decide_eq_true_eq]
    rw [ih hns]
    simp [hlf]
  | case4 c rest q hfn hbrk ih =>
    have hnp : ¬(c = '\r' ∧ ∃ rest2, rest = '\n' :: rest2) := by
      rintro ⟨hc, rest2, hr⟩
      exact hfn rest2 hc hr
    rw [noStrayTerminators_cons_other c rest hnp] at hns
    have hlf : ¬(c = '\n') := fun hx => hbrk (by simp [isTsLineBreak, hx])
    split at hns
    · cases hns
    · rw [lineStartsAux_cons_other c rest q hnp, if_neg hbrk]
      simp only [List.countP_cons, decide_eq_true_eq]
      rw [ih hns]
      simp [hlf]

theorem tsLineCount_eq_of_noStray (s : Str) (hns : noStrayTerminators s = true) :
    tsLineCount s = (splitLines s).length := by
  rw [splitLines_length]
  unfold tsLineCount lineStarts
  rw [lineStartsAux_length_of_noStray s 0 hns]

/-! ## Shape of the units produced by each extraction pass -/

/-- Line bounds for a unit relative to a file of `T` lines. -/
def LineBounded (T : ℕ) (u : SyntaxUnit) : Prop :=
  1 ≤ u.startLine ∧ u.endLine ≤ T

theorem extractUnit_bounded (h : Hash) (src rel : Str) (d : NodeData) :
    LineBounded (tsLineCount src) (extractUnit h src rel d) :=
  ⟨Nat.le_add_left 1 _, lineOfPos_lt_tsLineCount src d.endPos⟩

mutual
theorem visitNode_shape (h : Hash) (src rel : Str) :
    ∀ (n : TsNode) (u : SyntaxUnit), u ∈ visitNode h src rel n →
      ∃ d : NodeData, shouldExtract d.kind ∧ u = extractUnit h src rel d
  | .mk d cs, u, hu => by
    simp only [visitNode, List.mem_append] at hu
    rcases hu with hu | hu
    · by_cases hd : shouldExtract d.kind
      · simp only [hd, if_true, List.mem_singleton] at hu
        exact ⟨d, hd, hu⟩
      · simp [hd] at hu
    · exact visitForest_shape h src rel cs u hu
theorem visitForest_shape (h : Hash) (src rel : Str) :
    ∀ (f : TsForest) (u : SyntaxUnit), u ∈ visitForest h src rel f →
      ∃ d : NodeData, shouldExtract d.kind ∧ u = extractUnit h src rel d
  | .cons n t, u, hu => by
    simp only [visitForest, List.mem_append] at hu
    rcases hu with hu | hu
    · exact visitNode_shape h src rel n u hu
    · exact visitForest_shape h src rel t u hu
end

theorem visitNode_bounded (h : Hash) (src rel : Str) (n : TsNode) (u : SyntaxUnit)
    (hu : u ∈ visitNode h src rel n) : LineBounded (tsLineCount src) u := by
  obtain ⟨d, -, rfl⟩ := visitNode_shape h src rel n u hu
  exact extractUnit_bounded h src rel d

theorem commentUnitOf_bounded (h : Hash) (src rel : Str) (r : CommentRange) :
    LineBounded (tsLineCount src) (commentUnitOf h src rel r) :=
  ⟨Nat.le_add_left 1 _, lineOfPos_lt_tsLineCount src r.endPos⟩

theorem processLeading_shape (h : Hash) (src rel : Str) :
    ∀ (rs : List CommentRange) (seen : List Str) (u : SyntaxUnit),
      u ∈ (processLeading h src rel rs seen).1 →
      ∃ r : CommentRange, u = commentUnitOf h src rel r
  | [], _, u, hu => by simp [processLeading] at hu
  | r :: rs, seen, u, hu => by
    simp only [processLeading] at hu
    split at hu
    · exact processLeading_shape h src rel rs seen u hu
    · simp only [List.mem_cons] at hu
      rcases hu with rfl | hu
      · exact ⟨r, rfl⟩
      · exact processLeading_shape h src rel rs _ u hu

mutual
theorem scanNodeComments_shape (h : Hash) (src rel : Str) :
    ∀ (n : TsNode) (seen : List Str) (u : SyntaxUnit),
      u ∈ (scanNodeComments h src rel n seen).1 →
      ∃ r : CommentRange, u = commentUnitOf h src rel r
  | .mk d cs, seen, u, hu => by
    simp only [scanNodeComments, List.mem_append] at hu
    rcases hu with hu | hu
    · exact processLeading_shape h src rel d.leading seen u hu
    · exact scanForestComments_shape h src rel cs _ u hu
theorem scanForestComments_shape (h : Hash) (src rel : Str) :
    ∀ (f : TsForest) (seen : List Str) (u : SyntaxUnit),
      u ∈ (scanForestComments h src rel f seen).1 →
      ∃ r : CommentRange, u = commentUnitOf h src rel r
  | .cons n t, seen, u, hu => by
    simp only [scanForestComments, List.mem_append] at hu
    rcases hu with hu | hu
    · exact scanNodeComments_shape h src rel n seen u hu
    · exact scanForestComments_shape h src rel t _ u hu
end

theorem mem_coveredOf {us : List SyntaxUnit} {x : ℕ} :
    x ∈ coveredOf us ↔ ∃ u ∈ us, u.startLine ≤ x ∧ x ≤ u.endLine := by
  induction us with
  | nil => simp [coveredOf]
  | cons u us ih =>
    simp [coveredOf, unitLineSet, List.foldr_cons, Finset.mem_union, Finset.mem_Icc] at ih ⊢
    rw [ih]

theorem coveredOf_bounded {us : List SyntaxUnit} {T : ℕ}
    (hb : ∀ u ∈ us, LineBounded T u) : ∀ x ∈ coveredOf us, 1 ≤ x ∧ x ≤ T := by
  intro x hx
  obtain ⟨u, hu, h1, h2⟩ := mem_coveredOf.1 hx
  obtain ⟨hs, he⟩ := hb u hu
  exact ⟨le_trans hs h1, le_trans h2 he⟩

/-! ## Properties of the blank-line pass -/

theorem blankLinesAux_covered_mono (h : Hash) (rel : Str) :
    ∀ (ls : List Str) (i : ℕ) (covered : Finset ℕ),
      covered ⊆ (blankLinesAux h rel ls i covered).2
  | [], _, covered => by simp [blankLinesAux]
  | lineText :: rest, i, covered => by
    simp only [blankLinesAux]
    split
    · exact blankLinesAux_covered_mono h rel rest (i + 1) covered
    · split
      · exact fun x hx =>
          blankLinesAux_covered_mono h rel rest (i + 1) _
            (Finset.mem_insert_of_mem hx)
      · exact blankLinesAux_covered_mono h rel rest (i + 1) covered

theorem blankLinesAux_covered_spec (h : Hash) (rel : Str) :
    ∀ (ls : List Str) (i : ℕ) (covered : Finset ℕ) (n : ℕ),
      n ∈ (blankLinesAux h rel ls i covered).2 ↔
        n ∈ covered ∨ ∃ u ∈ (blankLinesAux h rel ls i covered).1, u.startLine = n
  | [], _, covered, n => by simp [blankLinesAux]
  | lineText :: rest, i, covered, n => by
    simp only [blankLinesAux]
    split
    · exact blankLinesAux_covered_spec h rel rest (i + 1) covered n
    · split
      · rw [blankLinesAux_covered_spec h rel rest (i + 1) _ n]
        simp only [Finset.mem_insert, List.mem_cons]
        constructor
        · rintro (⟨rfl | hn⟩ | ⟨u, hu, rfl⟩)
          · exact Or.inr ⟨_, Or.inl rfl, rfl⟩
          · exact Or.inl hn
          · exact Or.inr ⟨u, Or.inr hu, rfl⟩
        · rintro (hn | ⟨u, rfl | hu, rfl⟩)
          · exact Or.inl (Or.inr hn)
          · exact Or.inl (Or.inl rfl)
          · exact Or.inr ⟨u, hu, rfl⟩
      · exact blankLinesAux_covered_spec h rel rest (i + 1) covered n

theorem blankLinesAux_units_shape (h : Hash) (rel : Str) :
    ∀ (ls : List Str) (i : ℕ) (covered : Finset ℕ) (u : SyntaxUnit),
      u ∈ (blankLinesAux h rel ls i covered).1 →
      u.endLine = u.startLine ∧ u.startLine ∉ covered ∧
        i + 1 ≤ u.startLine ∧ u.startLine ≤ i + ls.length ∧
        u.sha1 = h ("blank:".toList ++ (Nat.repr u.startLine).toList)
  | [], _, _, u, hu => by simp [blankLinesAux] at hu
  | lineText :: rest, i, covered, u, hu => by
    simp only [blankLinesAux] at hu
    split at hu
    · obtain ⟨h1, h2, h3, h4, h5⟩ :=
        blankLinesAux_units_shape h rel rest (i + 1) covered u hu
      exact ⟨h1, h2, by omega, by simpa [Nat.add_comm, Nat.add_left_comm] using h4, h5⟩
    · split at hu
      · rcases List.mem_cons.1 hu with rfl | hu
        · next hc _ =>
          refine ⟨rfl, hc, le_refl _, by simp [blankUnitOf], rfl⟩
        · obtain ⟨h1, h2, h3, h4, h5⟩ :=
            blankLinesAux_units_shape h rel rest (i + 1) _ u hu
          refine ⟨h1, fun hx => h2 (Finset.mem_insert_of_mem hx), by omega,
            by simpa [Nat.add_comm, Nat.add_left_comm] using h4, h5⟩
      · obtain ⟨h1, h2, h3, h4, h5⟩ :=
          blankLinesAux_units_shape h rel rest (i + 1) covered u hu
        exact ⟨h1, h2, by omega, by simpa [Nat.add_comm, Nat.add_left_comm] using h4, h5⟩

theorem extractBlankLines_covered_bounded (h : Hash) (src rel : Str) (covered : Finset ℕ)
    (T : ℕ) (hc : ∀ n ∈ covered, 1 ≤ n ∧ n ≤ T) (hT : (splitLines src).length ≤ T) :
    ∀ n ∈ (extractBlankLines h src rel covered).2, 1 ≤ n ∧ n ≤ T := by
  intro n hn
  rw [extractBlankLines] at hn
  rcases (blankLinesAux_covered_spec h rel (splitLines src) 0 covered n).1 hn with
    hn | ⟨u, hu, rfl⟩
  · exact hc n hn
  · obtain ⟨-, -, h3, h4, -⟩ :=
      blankLinesAux_units_shape h rel (splitLines src) 0 covered u hu
    omega

/-- The union of the first two passes' covered lines — what the shared
mutable set holds when `extractBlankLines` starts. -/
def coveredAfterComments (h : Hash) (root : TsNode) (src rel : Str) : Finset ℕ :=
  coveredOf (visitNode h src rel root) ∪
    coveredOf ((scanNodeComments h src rel root []).1)

theorem coveredAfterComments_bounded (h : Hash) (root : TsNode) (src rel : Str) :
    ∀ n ∈ coveredAfterComments h root src rel, 1 ≤ n ∧ n ≤ tsLineCount src := by
  intro n hn
  rcases Finset.mem_union.1 hn with hn | hn
  · exact coveredOf_bounded (fun u hu => visitNode_bounded h src rel root u hu) n hn
  · refine coveredOf_bounded (fun u hu => ?_) n hn
    obtain ⟨r, rfl⟩ := scanNodeComments_shape h src rel root [] u hu
    exact commentUnitOf_bounded h src rel r

theorem scan_eq (h : Hash) (root : TsNode) (src rel : Str) :
    scan h root src rel =
      { coveredLines :=
          (extractBlankLines h src rel (coveredAfterComments h root src rel)).2.sort (· ≤ ·)
        syntaxUnits :=
          visitNode h src rel root ++ (scanNodeComments h src rel root []).1 ++
            (extractBlankLines h src rel (coveredAfterComments h root src rel)).1 } :=
  rfl

theorem scan_coveredLines_spec (h : Hash) (root : TsNode) (src rel : Str) :
    List.Sorted (· < ·) (scan h root src rel).coveredLines ∧
    ∀ n ∈ (scan h root src rel).coveredLines, 1 ≤ n ∧ n ≤ tsLineCount src := by
  rw [scan_eq]
  constructor
  · exact Finset.sort_sorted_lt _
  · intro n hn
    rw [Finset.mem_sort] at hn
    exact extractBlankLines_covered_bounded h src rel _ (tsLineCount src)
      (coveredAfterComments_bounded h root src rel)
      (splitLines_length_le_tsLineCount src) n hn

theorem scan_coveredLines_noStray (h : Hash) (root : TsNode) (src rel : Str)
    (hns : noStrayTerminators src = true) :
    ∀ n ∈ (scan h root src rel).coveredLines, 1 ≤ n ∧ n ≤ (splitLines src).length := by
  have := (scan_coveredLines_spec h root src rel).2
  rw [← tsLineCount_eq_of_noStray src hns]
  exact this

/-! ## The collector records each file's true line count -/

mutual
theorem walkDirectory_content (cd rt : Str) (pi ai : Ignore) :
    ∀ (t : FSTree) (f : CollectedFile), f ∈ walkDirectory cd rt pi ai t →
      f.totalLines = (splitLines f.content).length
  | .dir localIgnore entries, f, hf => by
    simp only [walkDirectory] at hf
    exact walkEntries_content cd rt (pi.merge localIgnore) ai entries f hf
theorem walkEntries_content (cd rt : Str) (ci ai : Ignore) :
    ∀ (l : FSList) (f : CollectedFile), f ∈ walkEntries cd rt ci ai l →
      f.totalLines = (splitLines f.content).length
  | .cons e t, f, hf => by
    simp only [walkEntries, List.mem_append] at hf
    rcases hf with hf | hf
    · exact walkEntry_content cd rt ci ai e f hf
    · exact walkEntries_content cd rt ci ai t f hf
theorem walkEntry_content (cd rt : Str) (ci ai : Ignore) :
    ∀ (e : FSEntry) (f : CollectedFile), f ∈ walkEntry cd rt ci ai e →
      f.totalLines = (splitLines f.content).length
  | .file name content, f, hf => by
    simp only [walkEntry] at hf
    split at hf
    · simp at hf
    · match content with
      | some c => simp only [List.mem_singleton] at hf; subst hf; rfl
      | none => simp at hf
  | .subdir name t, f, hf => by
    simp only [walkEntry] at hf
    split at hf
    · split at hf
      · simp at hf
      · split at hf
        · simp at hf
        · exact walkDirectory_content _ _ ci ai t f hf
    · split at hf
      · simp at hf
      · split at hf
        · simp at hf
        · exact walkDirectory_content _ _ ci ai t f hf
end

theorem collectFiles_content (ws : Str) (root : FSTree) (f : CollectedFile)
    (hf : f ∈ collectFiles ws root) : f.totalLines = (splitLines f.content).length :=
  walkDirectory_content ws [] (rootLocalIgnore root) alwaysIgnore root f hf

/-! ## Unfolding the scan driver -/

theorem runCodeScan_ok (h : Hash) (parse : Parse) (env : IOEnv) (now : Str)
    (r : ScanResult) (hr : runCodeScan h parse env now = .ok r) :
    r = { workspacePath := env.workspacePath
          scannedAt := now
          totalFiles :=
            ((collectFiles env.workspacePath env.root).map (scanCollectedFile h parse)).length
          files := (collectFiles env.workspacePath env.root).map (scanCollectedFile h parse) } := by
  unfold runCodeScan at hr
  split at hr
  · exact absurd hr (by simp)
  · split at hr
    · exact absurd hr (by simp)
    · injection hr with hr
      exact hr.symm

theorem scanCollectedFile_coveredLines (h : Hash) (parse : Parse) (f : CollectedFile) :
    List.Sorted (· < ·) (scanCollectedFile h parse f).coveredLines ∧
    ∀ n ∈ (scanCollectedFile h parse f).coveredLines, 1 ≤ n := by
  simp only [scanCollectedFile]
  split
  · have := scan_coveredLines_spec h
      (parse f.absolutePath f.content) f.content f.relativePath
    exact ⟨this.1, fun n hn => (this.2 n hn).1⟩
  · simp

theorem scanCollectedFile_coveredLines_noStray (h : Hash) (parse : Parse)
    (f : CollectedFile) (hf : f.totalLines = (splitLines f.content).length)
    (hns : noStrayTerminators f.content = true) :
    ∀ n ∈ (scanCollectedFile h parse f).coveredLines,
      1 ≤ n ∧ n ≤ (scanCollectedFile h parse f).totalLines := by
  simp only [scanCollectedFile]
  split
  · have := scan_coveredLines_noStray h
      (parse f.absolutePath f.content) f.content f.relativePath hns
    simpa [← hf] using this
  · simp

theorem scanSingleFile_ok (h : Hash) (parse : Parse) (root : FSTree)
    (ws rel : Str) (fe : FileEntry)
    (hfe : scanSingleFile h parse root ws rel = .ok (some fe)) :
    ∃ source : Str,
      resolvePath (splitOnPred (fun c => c = '/') rel) root = some (some source) ∧
      fe.totalLines = (splitLines source).length ∧ fe.filePath = rel ∧
      ((tsExtensions.contains (extOf rel) = true ∧
          fe.coveredLines = (scan h (parse (pathJoin ws rel) source) source rel).coveredLines ∧
          fe.syntaxUnits = (scan h (parse (pathJoin ws rel) source) source rel).syntaxUnits ∧
          fe.coveragePercent = coveragePercentOf fe.coveredLines.length fe.totalLines) ∨
        (tsExtensions.contains (extOf rel) = false ∧
          fe.coveredLines = [] ∧ fe.syntaxUnits = [] ∧ fe.coveragePercent = 0)) := by
  simp only [scanSingleFile] at hfe
  split at hfe
  · exact absurd hfe (by simp)
  · exact absurd hfe (by simp)
  · next source heq =>
    refine ⟨source, heq, ?_⟩
    split at hfe
    · next hext =>
      obtain rfl := (Option.some.inj (Except.ok.inj hfe))
      exact ⟨rfl, rfl, Or.inl ⟨hext, rfl, rfl, rfl⟩⟩
    · next hext =>
      obtain rfl := (Option.some.inj (Except.ok.inj hfe))
      exact ⟨rfl, rfl, Or.inr ⟨by simpa using hext, rfl, rfl, rfl⟩⟩

theorem scanCollectedFile_totalLines (h : Hash) (parse : Parse) (f : CollectedFile) :
    (scanCollectedFile h parse f).totalLines = f.totalLines := by
  simp only [scanCollectedFile]
  split <;> rfl

/-! ## Concrete fixtures used to instantiate the theorems -/

/-- The AST of a source with no extractable declarations and no comments
(for instance a whitespace-only file): a bare `SourceFile` root. -/
def trivialNode : TsNode :=
  .mk { kind := .other "SourceFile".toList, startPos := 0, endPos := 0,
        fullStart := 0, nameText := none, leading := [] } .nil

/-- A parser oracle mapping every source to the bare root — the accurate
parse of whitespace-only files, used for concrete instantiations. -/
def trivialParse : Parse := fun _ _ => trivialNode

/-- A workspace consisting of one readable one-line file `a.txt`. -/
def sampleFS : FSTree :=
  .dir emptyIgnore (.cons (.file "a.txt".toList (some "x".toList)) .nil)

/-- The entry a scan of `sampleFS`'s `a.txt` produces: `.txt` has no
registered scanner, so a zero-coverage entry. -/
def sampleEntry : FileEntry :=
  { filePath := "a.txt".toList
    totalLines := 1
    coveredLines := []
    coveragePercent := 0
    syntaxUnits := [] }

/-! ## C3 — coveredLines bounds

The claim's bound `coveredLines ⊆ [1, totalLines]` mixes two line
counts: unit positions come from `getLineAndCharacterOfPosition`, which
breaks lines at `'\n'`, `"\r\n"`, lone `'\r'`, U+2028 and U+2029, while
`totalLines` is `source.split('\n').length`.  They agree exactly on
sources with no stray terminators; a source with a lone `'\r'` separates
them, and the covered lines then exceed `totalLines`. -/

/-- A two-statement source whose statements are separated by a lone
carriage return — one line for `split('\n')`, two lines for the
TypeScript scanner. -/
def crSource : Str := "const a=1\rconst b=2".toList

/-- The parse of `crSource`: a `SourceFile` with two variable statements
at offsets `[0, 9)` and `[10, 19)` (the TypeScript parser treats the lone
`'\r'` as a line terminator separating the statements). -/
def crRoot : TsNode :=
  .mk { kind := .other "SourceFile".toList, startPos := 0, endPos := 19,
        fullStart := 0, nameText := none, leading := [] }
    (.cons (.mk { kind := .variableStatement, startPos := 0, endPos := 9,
                  fullStart := 0, nameText := some "a".toList, leading := [] } .nil)
      (.cons (.mk { kind := .variableStatement, startPos := 10, endPos := 19,
                    fullStart := 9, nameText := some "b".toList, leading := [] } .nil)
        .nil))

/-- The parser oracle for the counterexample workspace. -/
def crParse : Parse := fun _ _ => crRoot

/-- A workspace holding the lone-carriage-return source as `a.ts`. -/
def crFS : FSTree :=
  .dir emptyIgnore (.cons (.file "a.ts".toList (some crSource)) .nil)

/-- The `(totalLines, coveredLines)` of a successful single-file scan. -/
def scannedLineData (e : Except IOError (Option FileEntry)) : Option (ℕ × List ℕ) :=
  match e with
  | .ok (some fe) => some (fe.totalLines, fe.coveredLines)
  | _ => none

theorem sort_one_two : Finset.sort (· ≤ ·) ({1, 2} : Finset ℕ) = [1, 2] := by
  rw [show ({1, 2} : Finset ℕ) = insert 1 {2} from rfl, Finset.sort_insert]
  · rw [Finset.sort_singleton]
  · intro b hb
    simp at hb
    omega
  · decide

/-- C3 counterexample: scanning the lone-carriage-return file yields a
`FileEntry` with `totalLines = 1` (its source has no `'\n'`) but
`coveredLines = [1, 2]` — the element `2` exceeds `totalLines`, so
`coveredLines` is not a subset of `[1, totalLines]`. -/
theorem c3_counterexample :
    scannedLineData
        (scanSingleFile (fun s => s) crParse crFS "/w".toList "a.ts".toList) =
      some (1, [1, 2]) ∧
    (2 ∈ [1, 2] ∧ ¬((2 : ℕ) ≤ 1)) := by
  constructor
  · have hset2 : (extractBlankLines (fun s => s) crSource "a.ts".toList
        (coveredAfterComments (fun s => s) crRoot crSource "a.ts".toList)).2 =
        ({1, 2} : Finset ℕ) := by decide
    have hcov : (scan (fun s => s) crRoot crSource "a.ts".toList).coveredLines = [1, 2] := by
      rw [scan_eq, hset2]
      exact sort_one_two
    have hrfl : scannedLineData
        (scanSingleFile (fun s => s) crParse crFS "/w".toList "a.ts".toList) =
        some ((splitLines crSource).length,
          (scan (fun s => s) crRoot crSource "a.ts".toList).coveredLines) := rfl
    rw [hrfl, hcov]
    decide
  · decide

/-- C3 (amended): for every `FileEntry` produced by a full scan or a
single-file scan, `coveredLines` is strictly increasing — hence
duplicate-free — and every element is at least `1` and at most the
file's line count under the full TypeScript line-terminator set
(`tsLineCount`, counting `'\n'`, a `"\r\n"` pair once, a lone `'\r'`,
U+2028 and U+2029); `tsLineCount` equals
`totalLines = source.split('\n').length` exactly when the source has no
lone `'\r'` and no U+2028/U+2029, so for such sources every element lies
in `[1, totalLines]`. -/
theorem c3_amended_coveredLines_bounds (h : Hash) (parse : Parse) :
    (∀ (env : IOEnv) (now : Str) (r : ScanResult), runCodeScan h parse env now = .ok r →
      ∀ fe ∈ r.files, List.Sorted (· < ·) fe.coveredLines ∧
        ∀ n ∈ fe.coveredLines, 1 ≤ n) ∧
    (∀ (root : FSTree) (ws rel : Str) (fe : FileEntry),
      scanSingleFile h parse root ws rel = .ok (some fe) →
      List.Sorted (· < ·) fe.coveredLines ∧ ∀ n ∈ fe.coveredLines, 1 ≤ n) ∧
    (∀ (root : TsNode) (src rel : Str), ∀ n ∈ (scan h root src rel).coveredLines,
      1 ≤ n ∧ n ≤ tsLineCount src) ∧
    (∀ src : Str, noStrayTerminators src = true →
      tsLineCount src = (splitLines src).length) ∧
    (∀ (env : IOEnv) (now : Str) (r : ScanResult), runCodeScan h parse env now = .ok r →
      ∀ f ∈ collectFiles env.workspacePath env.root,
        noStrayTerminators f.content = true →
        scanCollectedFile h parse f ∈ r.files ∧
        ∀ n ∈ (scanCollectedFile h parse f).coveredLines,
          1 ≤ n ∧ n ≤ (scanCollectedFile h parse f).totalLines) ∧
    (∀ (root : FSTree) (ws rel : Str) (fe : FileEntry) (source : Str),
      scanSingleFile h parse root ws rel = .ok (some fe) →
      resolvePath (splitOnPred (fun c => c = '/') rel) root = some (some source) →
      noStrayTerminators source = true →
      ∀ n ∈ fe.coveredLines, 1 ≤ n ∧ n ≤ fe.totalLines) := by
  refine ⟨?_, ?_, ?_, tsLineCount_eq_of_noStray, ?_, ?_⟩
  · intro env now r hr fe hfe
    obtain rfl := runCodeScan_ok h parse env now r hr
    simp only [List.mem_map] at hfe
    obtain ⟨f, -, rfl⟩ := hfe
    exact scanCollectedFile_coveredLines h parse f
  · intro root ws rel fe hfe
    obtain ⟨source, -, -, -, hcase⟩ := scanSingleFile_ok h parse root ws rel fe hfe
    rcases hcase with ⟨-, hcl, -, -⟩ | ⟨-, hcl, -, -⟩
    · rw [hcl]
      have := scan_coveredLines_spec h (parse (pathJoin ws rel) source) source rel
      exact ⟨this.1, fun n hn => (this.2 n hn).1⟩
    · rw [hcl]
      simp
  · intro root src rel
    exact (scan_coveredLines_spec h root src rel).2
  · intro env now r hr f hf hns
    obtain rfl := runCodeScan_ok h parse env now r hr
    exact ⟨List.mem_map_of_mem _ hf,
      scanCollectedFile_coveredLines_noStray h parse f
        (collectFiles_content env.workspacePath env.root f hf) hns⟩
  · intro root ws rel fe source hfe hres hns
    obtain ⟨source', hres', hT, -, hcase⟩ := scanSingleFile_ok h parse root ws rel fe hfe
    rw [hres] at hres'
    obtain rfl : source = source' := Option.some.inj (Option.some.inj hres')
    rcases hcase with ⟨-, hcl, -, -⟩ | ⟨-, hcl, -, -⟩
    · rw [hcl, hT]
      exact scan_coveredLines_noStray h (parse (pathJoin ws rel) source) source rel hns
    · rw [hcl]
      simp

/-- C3 (amended) witness: the single-file conjunct applied to the
concrete one-file workspace, whose content has no stray terminators. -/
theorem c3_amended_witness :
    scanSingleFile (fun s => s) trivialParse sampleFS "/w".toList "a.txt".toList =
      .ok (some sampleEntry) ∧
    resolvePath (splitOnPred (fun c => c = '/') "a.txt".toList) sampleFS =
      some (some "x".toList) ∧
    noStrayTerminators "x".toList = true ∧
    (∀ n ∈ sampleEntry.coveredLines, 1 ≤ n ∧ n ≤ sampleEntry.totalLines) :=
  ⟨rfl, rfl, rfl,
    (c3_amended_coveredLines_bounds (fun s => s) trivialParse).2.2.2.2.2
      sampleFS "/w".toList "a.txt".toList sampleEntry "x".toList rfl rfl rfl⟩

/-! ## C10 — every produced FileEntry has totalLines ≥ 1 -/

/-- C10: `source.split('\n').length ≥ 1` for every string, so every
`FileEntry` produced by the full scan or the single-file scan has
`totalLines ≥ 1`, and the `totalLines = 0` fallback of the coverage
computation is unreachable (the positive branch is always taken). -/
theorem c10_totalLines_positive (h : Hash) (parse : Parse) :
    (∀ s : Str, 1 ≤ (splitLines s).length) ∧
    (∀ (env : IOEnv) (now : Str) (r : ScanResult), runCodeScan h parse env now = .ok r →
      ∀ fe ∈ r.files, 1 ≤ fe.totalLines ∧
        ∀ n : ℕ, coveragePercentOf n fe.totalLines =
          ((jsRound ((n : ℚ) / (fe.totalLines : ℚ) * 10000) : ℚ)) / 100) ∧
    (∀ (root : FSTree) (ws rel : Str) (fe : FileEntry),
      scanSingleFile h parse root ws rel = .ok (some fe) →
      1 ≤ fe.totalLines ∧
        ∀ n : ℕ, coveragePercentOf n fe.totalLines =
          ((jsRound ((n : ℚ) / (fe.totalLines : ℚ) * 10000) : ℚ)) / 100) := by
  refine ⟨splitLines_length_pos, ?_, ?_⟩
  · intro env now r hr fe hfe
    obtain rfl := runCodeScan_ok h parse env now r hr
    simp only [List.mem_map] at hfe
    obtain ⟨f, hf, rfl⟩ := hfe
    have h1 : 1 ≤ (scanCollectedFile h parse f).totalLines := by
      rw [scanCollectedFile_totalLines, collectFiles_content env.workspacePath env.root f hf]
      exact splitLines_length_pos _
    exact ⟨h1, fun n => by rw [coveragePercentOf, if_pos (by omega)]⟩
  · intro root ws rel fe hfe
    obtain ⟨source, -, hT, -, -⟩ := scanSingleFile_ok h parse root ws rel fe hfe
    have h1 : 1 ≤ fe.totalLines := by rw [hT]; exact splitLines_length_pos _
    exact ⟨h1, fun n => by rw [coveragePercentOf, if_pos (by omega)]⟩

/-- C10 witness: the theorem applied to the concrete one-file workspace. -/
theorem c10_witness :
    scanSingleFile (fun s => s) trivialParse sampleFS "/w".toList "a.txt".toList =
      .ok (some sampleEntry) ∧ 1 ≤ sampleEntry.totalLines :=
  ⟨rfl,
    ((c10_totalLines_positive (fun s => s) trivialParse).2.2
      sampleFS "/w".toList "a.txt".toList sampleEntry rfl).1⟩

/-! ## C4 — three-way line classification -/

/-- The blank-filler units the third pass produces on top of the covered
set left by the first two passes. -/
def blankUnitsOf (h : Hash) (root : TsNode) (src rel : Str) : List SyntaxUnit :=
  (extractBlankLines h src rel (coveredAfterComments h root src rel)).1

/-- C4: every line `1..totalLines` falls in exactly one of the three
classes — covered by a declaration/comment unit, blank-filler, or
uncovered — and the blank-line pass never creates a filler unit for a
line already covered by the earlier passes. -/
theorem c4_line_partition (h : Hash) (root : TsNode) (src rel : Str) :
    (∀ u ∈ blankUnitsOf h root src rel,
      u.endLine = u.startLine ∧ u.startLine ∉ coveredAfterComments h root src rel) ∧
    (coveredAfterComments h root src rel ∩ coveredOf (blankUnitsOf h root src rel) = ∅) ∧
    (∀ n : ℕ, 1 ≤ n → n ≤ (splitLines src).length →
      ((if n ∈ coveredAfterComments h root src rel then 1 else 0) +
        (if n ∈ coveredOf (blankUnitsOf h root src rel) then 1 else 0) +
        (if n ∉ coveredAfterComments h root src rel ∧
            n ∉ coveredOf (blankUnitsOf h root src rel) then 1 else 0) : ℕ) = 1) := by
  have hshape : ∀ u ∈ blankUnitsOf h root src rel,
      u.endLine = u.startLine ∧ u.startLine ∉ coveredAfterComments h root src rel := by
    intro u hu
    obtain ⟨h1, h2, -, -, -⟩ := blankLinesAux_units_shape h rel (splitLines src) 0
      (coveredAfterComments h root src rel) u hu
    exact ⟨h1, h2⟩
  have hdisj : coveredAfterComments h root src rel ∩
      coveredOf (blankUnitsOf h root src rel) = ∅ := by
    rw [Finset.eq_empty_iff_forall_not_mem]
    intro n hn
    rw [Finset.mem_inter] at hn
    obtain ⟨hn1, hn2⟩ := hn
    obtain ⟨u, hu, hs, he⟩ := mem_coveredOf.1 hn2
    obtain ⟨h1, h2⟩ := hshape u hu
    rw [h1] at he
    exact h2 ((le_antisymm he hs) ▸ hn1)
  refine ⟨hshape, hdisj, ?_⟩
  intro n h1n hnT
  by_cases hc : n ∈ coveredAfterComments h root src rel
  · have hb : n ∉ coveredOf (blankUnitsOf h root src rel) := by
      intro hb
      exact absurd (Finset.mem_inter.2 ⟨hc, hb⟩)
        (by rw [hdisj]; exact Finset.not_mem_empty n)
    simp [hc, hb]
  · by_cases hb : n ∈ coveredOf (blankUnitsOf h root src rel)
    · simp [hc, hb]
    · simp [hc, hb]

/-- C4 witness: the theorem applied at the whitespace-only file `" "`,
line 1. -/
theorem c4_witness :
    ((1 : ℕ) ≤ 1 ∧ 1 ≤ (splitLines " ".toList).length) ∧
    ((if (1 : ℕ) ∈ coveredAfterComments (fun s => s) trivialNode " ".toList "a.ts".toList
        then 1 else 0) +
      (if (1 : ℕ) ∈ coveredOf (blankUnitsOf (fun s => s) trivialNode " ".toList "a.ts".toList)
        then 1 else 0) +
      (if (1 : ℕ) ∉ coveredAfterComments (fun s => s) trivialNode " ".toList "a.ts".toList ∧
          (1 : ℕ) ∉ coveredOf (blankUnitsOf (fun s => s) trivialNode " ".toList "a.ts".toList)
        then 1 else 0) : ℕ) = 1 :=
  ⟨⟨le_refl 1, by decide⟩,
    (c4_line_partition (fun s => s) trivialNode " ".toList "a.ts".toList).2.2 1
      (le_refl 1) (by decide)⟩

/-! ## C5 — the coverage-percent formula -/

/-- Rounding a rational to two decimal places (the spec's `round2`,
JavaScript-style half-up rounding). -/
def round2 (q : ℚ) : ℚ := ((jsRound (q * 100) : ℚ)) / 100

theorem coveragePercentOf_eq_round2 (c T : ℕ) :
    coveragePercentOf c T = if T = 0 then 0 else round2 ((c : ℚ) / (T : ℚ) * 100) := by
  unfold coveragePercentOf round2
  rcases Nat.eq_zero_or_pos T with rfl | hT
  · simp
  · rw [if_pos hT, if_neg (by omega)]
    have harg : (c : ℚ) / (T : ℚ) * 100 * 100 = (c : ℚ) / (T : ℚ) * 10000 := by ring
    rw [harg]

theorem jsRound_zero : jsRound 0 = 0 := by
  unfold jsRound
  rw [zero_add, Int.floor_eq_zero_iff, Set.mem_Ico]
  norm_num

theorem round2_zero : round2 0 = 0 := by
  unfold round2
  rw [zero_mul, jsRound_zero]
  norm_num

/-- C5: every produced `FileEntry` satisfies
`coveragePercent = round2(|coveredLines| / totalLines × 100)`, with `0`
when `totalLines = 0`, and a file with no registered scanner still yields
an entry — with empty `coveredLines`, empty `syntaxUnits`, zero percent —
that is part of the full-scan result. -/
theorem c5_coverage_percent_formula (h : Hash) (parse : Parse) :
    (∀ (env : IOEnv) (now : Str) (r : ScanResult), runCodeScan h parse env now = .ok r →
      (∀ fe ∈ r.files,
        fe.coveragePercent =
          if fe.totalLines = 0 then 0
          else round2 ((fe.coveredLines.length : ℚ) / (fe.totalLines : ℚ) * 100)) ∧
      (∀ f ∈ collectFiles env.workspacePath env.root,
        tsExtensions.contains (extOf f.relativePath) = false →
          scanCollectedFile h parse f =
            { filePath := f.relativePath, totalLines := f.totalLines,
              coveredLines := [], coveragePercent := 0, syntaxUnits := [] } ∧
          scanCollectedFile h parse f ∈ r.files)) ∧
    (∀ (root : FSTree) (ws rel : Str) (fe : FileEntry),
      scanSingleFile h parse root ws rel = .ok (some fe) →
      fe.coveragePercent =
        if fe.totalLines = 0 then 0
        else round2 ((fe.coveredLines.length : ℚ) / (fe.totalLines : ℚ) * 100)) := by
  have hentry : ∀ f : CollectedFile,
      (scanCollectedFile h parse f).coveragePercent =
        if (scanCollectedFile h parse f).totalLines = 0 then 0
        else round2 (((scanCollectedFile h parse f).coveredLines.length : ℚ) /
          ((scanCollectedFile h parse f).totalLines : ℚ) * 100) := by
    intro f
    simp only [scanCollectedFile]
    split
    · exact coveragePercentOf_eq_round2 _ _
    · simp only [List.length_nil, Nat.cast_zero, zero_div, zero_mul, round2_zero, ite_self]
  constructor
  · intro env now r hr
    obtain rfl := runCodeScan_ok h parse env now r hr
    constructor
    · intro fe hfe
      simp only [List.mem_map] at hfe
      obtain ⟨f, -, rfl⟩ := hfe
      exact hentry f
    · intro f hf hext
      constructor
      · simp only [scanCollectedFile, hext]
        simp
      · exact List.mem_map_of_mem _ hf
  · intro root ws rel fe hfe
    obtain ⟨source, -, -, -, hcase⟩ := scanSingleFile_ok h parse root ws rel fe hfe
    rcases hcase with ⟨-, hcl, -, hpct⟩ | ⟨-, hcl, -, hpct⟩
    · rw [hpct, coveragePercentOf_eq_round2]
    · rw [hpct, hcl]
      simp only [List.length_nil, Nat.cast_zero, zero_div, zero_mul, round2_zero, ite_self]

/-- C5 witness: the theorem applied to the concrete one-file workspace
(whose `a.txt` has no registered scanner). -/
theorem c5_witness :
    scanSingleFile (fun s => s) trivialParse sampleFS "/w".toList "a.txt".toList =
      .ok (some sampleEntry) ∧
    sampleEntry.coveragePercent =
      if sampleEntry.totalLines = 0 then 0
      else round2 ((sampleEntry.coveredLines.length : ℚ) / (sampleEntry.totalLines : ℚ) * 100) :=
  ⟨rfl,
    (c5_coverage_percent_formula (fun s => s) trivialParse).2
      sampleFS "/w".toList "a.txt".toList sampleEntry rfl⟩

/-! ## List lemmas for the merge step -/

theorem filter_eq_nil_of_findIdx?_none {α : Type} (p : α → Bool) (l : List α)
    (hnone : l.findIdx? p = none) : l.filter p = [] := by
  rw [List.filter_eq_nil_iff]
  rw [List.findIdx?_eq_none_iff] at hnone
  intro a ha
  simp [hnone a ha]

theorem set_filter_eq_singleton {α : Type} (p : α → Bool) (fe : α) (hfe : p fe = true)
    (l : List α) (idx : ℕ) (hidx : l.findIdx? p = some idx) (hcount : l.countP p ≤ 1) :
    (l.set idx fe).filter p = [fe] := by
  obtain ⟨hlt, hpidx, hprev⟩ := List.findIdx?_eq_some_iff_getElem.mp hidx
  have hdecomp : l = l.take idx ++ l[idx] :: l.drop (idx + 1) := by
    conv_lhs => rw [← List.take_append_drop idx l]
    congr 1
    exact (List.getElem_cons_drop l idx hlt).symm
  have hset : l.set idx fe = l.take idx ++ fe :: l.drop (idx + 1) := by
    rw [List.set_eq_take_append_cons_drop, if_pos hlt]
  have htake : (l.take idx).countP p = 0 := by
    rw [List.countP_eq_zero]
    intro a ha
    rw [List.mem_iff_getElem] at ha
    obtain ⟨j, hj, rfl⟩ := ha
    rw [List.length_take] at hj
    have hjidx : j < idx := lt_of_lt_of_le hj (min_le_left _ _)
    rw [List.getElem_take]
    exact hprev j hjidx
  have hdrop : (l.drop (idx + 1)).countP p = 0 := by
    have hcc := congrArg (List.countP p) hdecomp
    rw [List.countP_append, List.countP_cons, htake, if_pos hpidx] at hcc
    omega
  rw [hset, List.filter_append, List.filter_cons_of_pos hfe,
    List.filter_eq_nil_iff.2 (List.countP_eq_zero.mp htake),
    List.filter_eq_nil_iff.2 (List.countP_eq_zero.mp hdrop)]
  rfl

theorem mergeFileEntry_filter (r : ScanResult) (rel : Str) (fe : FileEntry) (now : Str)
    (hfe : fe.filePath = rel)
    (hcount : r.files.countP (fun f => f.filePath = rel) ≤ 1) :
    (mergeFileEntry r rel fe now).files.filter (fun f => f.filePath = rel) = [fe] := by
  unfold mergeFileEntry
  cases hidx : r.files.findIdx? (fun f => f.filePath = rel) with
  | none =>
    simp only
    rw [List.filter_append, filter_eq_nil_of_findIdx?_none _ _ hidx]
    simp [hfe]
  | some idx =>
    simp only
    exact set_filter_eq_singleton _ fe (by simp [hfe]) r.files idx hidx hcount

theorem mergeFileEntry_totalFiles_of_found (r : ScanResult) (rel : Str)
    (fe : FileEntry) (now : Str) (idx : ℕ)
    (hidx : r.files.findIdx? (fun f => f.filePath = rel) = some idx) :
    (mergeFileEntry r rel fe now).totalFiles = r.totalFiles := by
  unfold mergeFileEntry
  rw [hidx]

theorem Cache.put_same (c : Cache) (k : Str) (v : ScanResult) : (c.put k v) k = some v := by
  unfold Cache.put
  simp

/-! ## C7 — single-file merge idempotence -/

/-- C7: with the file's content unchanged (the rescan is the same
deterministic computation), merging its rescan into a cached result twice
leaves exactly one entry for that file path — equal to the entry after a
single merge — and an unchanged `totalFiles`. -/
theorem c7_merge_idempotence (h : Hash) (parse : Parse) (root : FSTree)
    (ws rel now now' : Str) (c : Cache) (fe : FileEntry) (r₀ : ScanResult)
    (hscan : scanSingleFile h parse root ws rel = .ok (some fe))
    (hc : c ws = some r₀)
    (hcount : r₀.files.countP (fun f => f.filePath = rel) ≤ 1) :
    ∃ (c₁ c₂ : Cache) (r₁ r₂ : ScanResult),
      scanFile h parse root ws rel now c = .ok (c₁, some fe) ∧
      scanFile h parse root ws rel now' c₁ = .ok (c₂, some fe) ∧
      c₁ ws = some r₁ ∧ c₂ ws = some r₂ ∧
      r₁.files.filter (fun f => f.filePath = rel) = [fe] ∧
      r₂.files.filter (fun f => f.filePath = rel) = [fe] ∧
      r₂.files.countP (fun f => f.filePath = rel) = 1 ∧
      r₂.totalFiles = r₁.totalFiles := by
  obtain ⟨source, -, -, hfp, -⟩ := scanSingleFile_ok h parse root ws rel fe hscan
  set p : FileEntry → Bool := fun f => f.filePath = rel with hp
  set r₁ : ScanResult := mergeFileEntry r₀ rel fe now with hr₁
  set c₁ : Cache := c.put ws r₁ with hc₁
  have hstep1 : scanFile h parse root ws rel now c = .ok (c₁, some fe) := by
    unfold scanFile
    rw [hscan, hc]
  have hc₁ws : c₁ ws = some r₁ := Cache.put_same c ws r₁
  have hfilter₁ : r₁.files.filter p = [fe] :=
    mergeFileEntry_filter r₀ rel fe now hfp hcount
  have hcount₁ : r₁.files.countP p = 1 := by
    rw [List.countP_eq_length_filter, hfilter₁]
    rfl
  obtain ⟨idx, hidx⟩ : ∃ idx, r₁.files.findIdx? p = some idx := by
    have hfe_mem : fe ∈ r₁.files.filter p := by rw [hfilter₁]; exact List.mem_singleton_self fe
    rw [List.mem_filter] at hfe_mem
    have hsome : (r₁.files.findIdx? p).isSome = true := by
      rw [List.findIdx?_isSome]
      exact List.any_eq_true.2 ⟨fe, hfe_mem.1, hfe_mem.2⟩
    exact Option.isSome_iff_exists.mp hsome
  set r₂ : ScanResult := mergeFileEntry r₁ rel fe now' with hr₂
  set c₂ : Cache := c₁.put ws r₂ with hc₂
  have hstep2 : scanFile h parse root ws rel now' c₁ = .ok (c₂, some fe) := by
    unfold scanFile
    rw [hscan, hc₁ws]
  have hfilter₂ : r₂.files.filter p = [fe] :=
    mergeFileEntry_filter r₁ rel fe now' hfp (by rw [hcount₁])
  refine ⟨c₁, c₂, r₁, r₂, hstep1, hstep2, hc₁ws, Cache.put_same c₁ ws r₂,
    hfilter₁, hfilter₂, ?_, ?_⟩
  · rw [List.countP_eq_length_filter, hfilter₂]
    rfl
  · exact mergeFileEntry_totalFiles_of_found r₁ rel fe now' idx hidx

/-- C7 witness: the theorem applied to the one-file workspace with a
cached result holding no entry for `a.txt` yet. -/
theorem c7_witness :
    scanSingleFile (fun s => s) trivialParse sampleFS "/w".toList "a.txt".toList =
      .ok (some sampleEntry) ∧
    ((emptyCache.put "/w".toList
        { workspacePath := "/w".toList, scannedAt := "t0".toList,
          totalFiles := 0, files := [] }) "/w".toList =
      some { workspacePath := "/w".toList, scannedAt := "t0".toList,
             totalFiles := 0, files := [] }) ∧
    ∃ (c₁ c₂ : Cache) (r₁ r₂ : ScanResult),
      scanFile (fun s => s) trivialParse sampleFS "/w".toList "a.txt".toList "t1".toList
          (emptyCache.put "/w".toList
            { workspacePath := "/w".toList, scannedAt := "t0".toList,
              totalFiles := 0, files := [] }) = .ok (c₁, some sampleEntry) ∧
      scanFile (fun s => s) trivialParse sampleFS "/w".toList "a.txt".toList "t2".toList c₁ =
        .ok (c₂, some sampleEntry) ∧
      c₁ "/w".toList = some r₁ ∧ c₂ "/w".toList = some r₂ ∧
      r₁.files.filter (fun f => f.filePath = "a.txt".toList) = [sampleEntry] ∧
      r₂.files.filter (fun f => f.filePath = "a.txt".toList) = [sampleEntry] ∧
      r₂.files.countP (fun f => f.filePath = "a.txt".toList) = 1 ∧
      r₂.totalFiles = r₁.totalFiles :=
  ⟨rfl, rfl,
    c7_merge_idempotence (fun s => s) trivialParse sampleFS "/w".toList "a.txt".toList
      "t1".toList "t2".toList _ sampleEntry
      { workspacePath := "/w".toList, scannedAt := "t0".toList, totalFiles := 0, files := [] }
      rfl rfl (by decide)⟩

/-! ## C9 — totalFiles always counts the files -/

/-- One store mutation: a full scan (`executeScan`) or a single-file
rescan-merge (`scanFile`).  A thrown exception leaves the cache
untouched. -/
inductive StoreOp where
  | fullScan (env : IOEnv) (now : Str)
  | singleFile (root : FSTree) (ws rel now : Str)

/-- Apply one store operation to the cache. -/
def applyOp (h : Hash) (parse : Parse) (c : Cache) : StoreOp → Cache
  | .fullScan env now =>
    match executeScan h parse env now c with
    | .ok res => res.1
    | .error _ => c
  | .singleFile root ws rel now =>
    match scanFile h parse root ws rel now c with
    | .ok res => res.1
    | .error _ => c

/-- Apply a sequence of store operations. -/
def applyOps (h : Hash) (parse : Parse) : Cache → List StoreOp → Cache
  | c, [] => c
  | c, op :: ops => applyOps h parse (applyOp h parse c op) ops

/-- The store invariant: every cached result's `totalFiles` equals its
number of file entries. -/
def CacheCounts (c : Cache) : Prop :=
  ∀ (ws : Str) (r : ScanResult), c ws = some r → r.totalFiles = r.files.length

theorem Cache.put_counts {c : Cache} (hC : CacheCounts c) {k : Str} {v : ScanResult}
    (hv : v.totalFiles = v.files.length) : CacheCounts (c.put k v) := by
  intro ws r hr
  simp only [Cache.put] at hr
  split at hr
  · exact (Option.some.inj hr) ▸ hv
  · exact hC ws r hr

theorem mergeFileEntry_counts (r : ScanResult) (rel : Str) (fe : FileEntry) (now : Str)
    (hr : r.totalFiles = r.files.length) :
    (mergeFileEntry r rel fe now).totalFiles = (mergeFileEntry r rel fe now).files.length := by
  unfold mergeFileEntry
  cases hidx : r.files.findIdx? (fun f => f.filePath = rel) with
  | some idx => simp [hr, List.length_set]
  | none => simp

theorem applyOp_counts (h : Hash) (parse : Parse) (c : Cache) (hC : CacheCounts c)
    (op : StoreOp) : CacheCounts (applyOp h parse c op) := by
  cases op with
  | fullScan env now =>
    simp only [applyOp]
    cases hrun : executeScan h parse env now c with
    | error e => exact hC
    | ok res =>
      unfold executeScan at hrun
      cases hr : runCodeScan h parse env now with
      | error e => rw [hr] at hrun; simp at hrun
      | ok r =>
        rw [hr] at hrun
        obtain rfl := Except.ok.inj hrun
        refine Cache.put_counts hC ?_
        obtain rfl := runCodeScan_ok h parse env now r hr
        simp
  | singleFile root ws rel now =>
    simp only [applyOp]
    cases hsf : scanFile h parse root ws rel now c with
    | error e => exact hC
    | ok res =>
      unfold scanFile at hsf
      cases hscan : scanSingleFile h parse root ws rel with
      | error e => rw [hscan] at hsf; simp at hsf
      | ok ofe =>
        rw [hscan] at hsf
        cases ofe with
        | none =>
          obtain rfl := Except.ok.inj hsf
          exact hC
        | some fe =>
          cases hcws : c ws with
          | some r₀ =>
            rw [hcws] at hsf
            obtain rfl := Except.ok.inj hsf
            exact Cache.put_counts hC (mergeFileEntry_counts r₀ rel fe now (hC ws r₀ hcws))
          | none =>
            rw [hcws] at hsf
            obtain rfl := Except.ok.inj hsf
            exact Cache.put_counts hC (by simp)

theorem applyOps_counts (h : Hash) (parse : Parse) :
    ∀ (ops : List StoreOp) (c : Cache), CacheCounts c →
      CacheCounts (applyOps h parse c ops)
  | [], _, hC => hC
  | op :: ops, c, hC =>
    applyOps_counts h parse ops _ (applyOp_counts h parse c hC op)

/-- C9: after any sequence of store operations — full scans, merges into
an existing cached result (replace or append), and minimal one-file
synthesis — every cached `ScanResult` satisfies
`totalFiles = files.length`. -/
theorem c9_totalFiles_matches_files_length (h : Hash) (parse : Parse)
    (ops : List StoreOp) (ws : Str) (r : ScanResult)
    (hr : applyOps h parse emptyCache ops ws = some r) :
    r.totalFiles = r.files.length :=
  applyOps_counts h parse ops emptyCache
    (fun _ _ hx => by simp [emptyCache] at hx) ws r hr

/-- C9 witness: the theorem applied to one concrete single-file merge on
the empty cache. -/
theorem c9_witness :
    applyOps (fun s => s) trivialParse emptyCache
        [.singleFile sampleFS "/w".toList "a.txt".toList "t1".toList] "/w".toList =
      some { workspacePath := "/w".toList, scannedAt := "t1".toList,
             totalFiles := 1, files := [sampleEntry] } ∧
    ({ workspacePath := "/w".toList, scannedAt := "t1".toList,
       totalFiles := 1, files := [sampleEntry] } : ScanResult).totalFiles =
      ({ workspacePath := "/w".toList, scannedAt := "t1".toList,
         totalFiles := 1, files := [sampleEntry] } : ScanResult).files.length :=
  ⟨rfl,
    c9_totalFiles_matches_files_length (fun s => s) trivialParse
      [.singleFile sampleFS "/w".toList "a.txt".toList "t1".toList] "/w".toList _ rfl⟩

/-! ## C6 — keyword lookup -/

/-- Occurrence as a contiguous substring — the spec's "literal
substring". -/
def IsSubstringOf (needle hay : Str) : Prop := ∃ l r, hay = l ++ needle ++ r

theorem containsSub_iff (hay needle : Str) :
    containsSub hay needle = true ↔ IsSubstringOf needle hay := by
  unfold containsSub IsSubstringOf
  rw [List.any_eq_true]
  constructor
  · rintro ⟨i, -, hpre⟩
    rw [List.isPrefixOf_iff_prefix] at hpre
    obtain ⟨t, ht⟩ := hpre
    refine ⟨hay.take i, t, ?_⟩
    conv_lhs => rw [← List.take_append_drop i hay]
    rw [← ht, List.append_assoc]
  · rintro ⟨l, r, rfl⟩
    refine ⟨l.length, ?_, ?_⟩
    · rw [List.mem_range]
      simp only [List.length_append]
      omega
    · rw [List.isPrefixOf_iff_prefix, List.append_assoc, List.drop_left]
      exact ⟨r, rfl⟩

/-- The spec's token-match disjunction: the token occurs literally in the
lowercased `"{type} {name}"` haystack, or it is an alias-table keyword
with a nonempty alias list one of whose type-tag substrings occurs in the
lowercased type, or it is a pure modifier keyword (empty alias list),
matching unconditionally. -/
def SpecTokenMatch (u : SyntaxUnit) (t : Str) : Prop :=
  IsSubstringOf t (toLowerStr (u.type ++ " ".toList ++ u.name)) ∨
  (∃ aliases, aliasLookup t = some aliases ∧ aliases ≠ [] ∧
    ∃ a ∈ aliases, IsSubstringOf a (toLowerStr u.type)) ∨
  aliasLookup t = some []

theorem tokenMatches_iff (u : SyntaxUnit) (t : Str) :
    tokenMatches u t = true ↔ SpecTokenMatch u t := by
  unfold tokenMatches SpecTokenMatch
  by_cases hhay : containsSub (toLowerStr (u.type ++ " ".toList ++ u.name)) t = true
  · rw [if_pos hhay]
    simp only [true_iff]
    exact Or.inl ((containsSub_iff _ _).1 hhay)
  · rw [if_neg hhay]
    cases hal : aliasLookup t with
    | none =>
      constructor
      · intro hx
        exact absurd hx (by simp)
      · rintro (hx | ⟨aliases, h1, -, -⟩ | h1)
        · exact absurd ((containsSub_iff _ _).2 hx) hhay
        · cases h1
        · cases h1
    | some aliases =>
      show (if aliases.isEmpty = true then true
          else aliases.any fun a => containsSub (toLowerStr u.type) a) = true ↔ _
      by_cases hempty : aliases.isEmpty
      · rw [if_pos hempty]
        rw [List.isEmpty_iff] at hempty
        subst hempty
        constructor
        · intro hx
          exact Or.inr (Or.inr rfl)
        · intro hx
          rfl
      · rw [if_neg hempty]
        rw [List.any_eq_true]
        constructor
        · rintro ⟨a, ha, hsub⟩
          exact Or.inr (Or.inl ⟨aliases, rfl,
            by rintro rfl; simp at hempty, a, ha, (containsSub_iff _ _).1 hsub⟩)
        · rintro (hx | ⟨aliases', h1, -, a, ha, hsub⟩ | h1)
          · exact absurd ((containsSub_iff _ _).2 hx) hhay
          · obtain rfl := Option.some.inj h1
            exact ⟨a, ha, (containsSub_iff _ _).2 hsub⟩
          · obtain rfl := Option.some.inj h1
            simp at hempty

/-- Sample units for the spec's concrete lookup case: a block-scoped
variable `foo`, a class `Widget`, a function `doThing`. -/
def sampleVarUnit : SyntaxUnit :=
  { type := "VariableStatement".toList, name := "foo".toList,
    filePath := "a.ts".toList, startLine := 1, startColumn := 1,
    endLine := 1, endColumn := 20, sha1 := "hv".toList }

def sampleClassUnit : SyntaxUnit :=
  { type := "ClassDeclaration".toList, name := "Widget".toList,
    filePath := "a.ts".toList, startLine := 3, startColumn := 1,
    endLine := 6, endColumn := 2, sha1 := "hc".toList }

def sampleFnUnit : SyntaxUnit :=
  { type := "FunctionDeclaration".toList, name := "doThing".toList,
    filePath := "a.ts".toList, startLine := 8, startColumn := 1,
    endLine := 10, endColumn := 2, sha1 := "hf".toList }

def sampleLookupEntry : FileEntry :=
  { filePath := "a.ts".toList
    totalLines := 10
    coveredLines := [1, 3, 4, 5, 6, 8, 9, 10]
    coveragePercent := 80
    syntaxUnits := [sampleVarUnit, sampleClassUnit, sampleFnUnit] }

theorem tokenMatchesE_eq_ok (u : SyntaxUnit) (t : Str)
    (ht : t ≠ "constructor".toList ∧ t ≠ "__proto__".toList) :
    tokenMatchesE u t = .ok (tokenMatches u t) := by
  simp only [tokenMatchesE, tokenMatches, aliasIndex]
  split
  · rfl
  · cases hal : aliasLookup t with
    | some aliases =>
      by_cases he : aliases.isEmpty
      · simp [he]
      · simp [he]
    | none =>
      have hni : ¬(t = "constructor".toList ∨ t = "__proto__".toList) := by
        rintro (hx | hx)
        · exact ht.1 hx
        · exact ht.2 hx
      rw [if_neg hni]

theorem everyTokenMatchesE_eq (u : SyntaxUnit) (tokens : List Str)
    (ht : ∀ t ∈ tokens, t ≠ "constructor".toList ∧ t ≠ "__proto__".toList) :
    everyTokenMatchesE u tokens = .ok (tokens.all (tokenMatches u)) := by
  induction tokens with
  | nil => rfl
  | cons t ts ih =>
    have h1 := tokenMatchesE_eq_ok u t (ht t (List.mem_cons_self t ts))
    have h2 := ih (fun x hx => ht x (List.mem_cons_of_mem t hx))
    simp only [everyTokenMatchesE, h1, List.all_cons]
    cases hb : tokenMatches u t with
    | false => simp
    | true => simp [h2]

theorem filterUnitsE_eq (tokens : List Str) (us : List SyntaxUnit)
    (ht : ∀ t ∈ tokens, t ≠ "constructor".toList ∧ t ≠ "__proto__".toList) :
    filterUnitsE tokens us = .ok (us.filter (fun u => tokens.all (tokenMatches u))) := by
  induction us with
  | nil => rfl
  | cons u us ih =>
    simp only [filterUnitsE, everyTokenMatchesE_eq u tokens ht, ih, List.filter_cons]

theorem filterUnitsE_constructor_throws (us : List SyntaxUnit)
    (hbad : ∃ u ∈ us, containsSub (toLowerStr (u.type ++ " ".toList ++ u.name))
      "constructor".toList = false) :
    filterUnitsE ["constructor".toList] us = .error .typeError := by
  induction us with
  | nil => simp at hbad
  | cons u us ih =>
    obtain ⟨v, hv, hvf⟩ := hbad
    by_cases hu : containsSub (toLowerStr (u.type ++ " ".toList ++ u.name))
        "constructor".toList = true
    · have hhead : everyTokenMatchesE u ["constructor".toList] = .ok true := by
        simp only [everyTokenMatchesE, tokenMatchesE]
        rw [if_pos hu]
      have hv' : v ∈ us := by
        rcases List.mem_cons.1 hv with rfl | hv'
        · rw [hvf] at hu
          cases hu
        · exact hv'
      simp only [filterUnitsE, hhead]
      rw [ih ⟨v, hv', hvf⟩]
    · have hal : aliasIndex "constructor".toList = .inherited := rfl
      have hthrow : tokenMatchesE u "constructor".toList = .error .typeError := by
        simp only [tokenMatchesE, hal]
        rw [if_neg hu]
      have hhead : everyTokenMatchesE u ["constructor".toList] = .error .typeError := by
        simp only [everyTokenMatchesE]
        rw [hthrow]
      simp only [filterUnitsE]
      rw [hhead]

/-- C6 counterexample: the lowercased token `"constructor"` is not an own
key of the alias table, so `keywordTypeAliases["constructor"]` yields the
inherited `Object.prototype.constructor`; on the sample file — whose
first unit's haystack `"variablestatement foo"` does not contain the
token — the filter throws a `TypeError`, instead of returning the
literal-substring matches the claim specifies. -/
theorem c6_counterexample :
    lookupUnitsE sampleLookupEntry "constructor".toList = .error .typeError ∧
    lookupUnitsE sampleLookupEntry "constructor".toList ≠
      .ok (sampleLookupEntry.syntaxUnits.filter
        (fun u => containsSub (toLowerStr (u.type ++ " ".toList ++ u.name))
          "constructor".toList)) := by
  constructor
  · rfl
  · intro hcontra
    rw [(rfl : lookupUnitsE sampleLookupEntry "constructor".toList =
      .error .typeError)] at hcontra
    exact Except.noConfusion hcontra

/-- C6 (amended): for every keyword phrase none of whose lowercased
whitespace tokens is an inherited `Object.prototype` property name
(`"constructor"` or `"__proto__"`), lookup tokenizes on whitespace (zero
tokens yield `[]`) and returns exactly the units every token matches
under the spec's token-match disjunction; in particular on a file with a
block-scoped variable `foo`, `"const foo"` selects exactly the units of
variable-declaration type tag whose name contains `foo`, and
`"zzzNoMatch"` selects nothing.  For a phrase containing such an
inherited name as a token, the filter instead throws a `TypeError` at
the first unit whose haystack lacks the token. -/
theorem c6_amended_lookup_matching :
    (∀ (fe : FileEntry) (kw : Str), tokenize kw = [] → lookupUnitsE fe kw = .ok []) ∧
    (∀ (fe : FileEntry) (kw : Str),
      (∀ t ∈ tokenize kw, t ≠ "constructor".toList ∧ t ≠ "__proto__".toList) →
      ∃ us : List SyntaxUnit,
        lookupUnitsE fe kw = .ok us ∧ us.Sublist fe.syntaxUnits ∧
        ∀ u : SyntaxUnit, u ∈ us ↔
          tokenize kw ≠ [] ∧ u ∈ fe.syntaxUnits ∧
            ∀ t ∈ tokenize kw, SpecTokenMatch u t) ∧
    (∀ (fe : FileEntry) (u : SyntaxUnit), u ∈ fe.syntaxUnits →
      containsSub (toLowerStr (u.type ++ " ".toList ++ u.name))
          "constructor".toList = false →
      lookupUnitsE fe "constructor".toList = .error .typeError) ∧
    (∀ (h : Hash) (parse : Parse) (root : FSTree) (ws fp kw now : Str)
        (c c' : Cache) (fe : FileEntry),
      scanFile h parse root ws fp now c = .ok (c', some fe) →
      testsLookupUnit h parse root ws fp kw now c =
        (lookupUnitsE fe kw).map (fun us => (c', us))) ∧
    (lookupUnitsE sampleLookupEntry "const foo".toList =
      .ok (sampleLookupEntry.syntaxUnits.filter
        (fun u => containsSub (toLowerStr u.type) "variable".toList &&
          containsSub (toLowerStr u.name) "foo".toList))) ∧
    (lookupUnitsE sampleLookupEntry "const foo".toList = .ok [sampleVarUnit]) ∧
    (lookupUnitsE sampleLookupEntry "zzzNoMatch".toList = .ok []) := by
  refine ⟨?_, ?_, ?_, ?_, by rfl, by rfl, by rfl⟩
  · intro fe kw hk
    simp [lookupUnitsE, hk]
  · intro fe kw ht
    by_cases hk : tokenize kw = []
    · refine ⟨[], by simp [lookupUnitsE, hk], List.nil_sublist _, ?_⟩
      intro u
      simp [hk]
    · refine ⟨fe.syntaxUnits.filter (fun u => (tokenize kw).all (tokenMatches u)),
        ?_, List.filter_sublist _, ?_⟩
      · simp only [lookupUnitsE]
        rw [if_neg (by simpa [List.isEmpty_iff] using hk)]
        exact filterUnitsE_eq _ _ ht
      · intro u
        rw [List.mem_filter, List.all_eq_true]
        constructor
        · rintro ⟨hmem, hall⟩
          exact ⟨hk, hmem, fun t htt => (tokenMatches_iff u t).1 (hall t htt)⟩
        · rintro ⟨-, hmem, hall⟩
          exact ⟨hmem, fun t htt => (tokenMatches_iff u t).2 (hall t htt)⟩
  · intro fe u hu hfail
    have htok : tokenize "constructor".toList = ["constructor".toList] := by decide
    simp only [lookupUnitsE, htok]
    rw [if_neg (by simp)]
    exact filterUnitsE_constructor_throws fe.syntaxUnits ⟨u, hu, hfail⟩
  · intro h parse root ws fp kw now c c' fe hsf
    cases hl : lookupUnitsE fe kw <;> simp only [testsLookupUnit, hsf, hl, Except.map]

/-- C6 (amended) witness: the handler conjunct applied to the concrete
one-file workspace, with its hypothesis discharged by evaluation. -/
theorem c6_amended_witness :
    testsLookupUnit (fun s => s) trivialParse sampleFS "/w".toList "a.txt".toList
        "zzz".toList "t1".toList emptyCache =
      (lookupUnitsE sampleEntry "zzz".toList).map
        (fun us => (emptyCache.put "/w".toList
          { workspacePath := "/w".toList, scannedAt := "t1".toList,
            totalFiles := 1, files := [sampleEntry] }, us)) :=
  c6_amended_lookup_matching.2.2.2.1 (fun s => s) trivialParse sampleFS
    "/w".toList "a.txt".toList "zzz".toList "t1".toList emptyCache _ sampleEntry rfl

/-! ## C1 — content hashes and the source slice -/

theorem extractUnit_sha1 (h : Hash) (src rel : Str) (d : NodeData) :
    (extractUnit h src rel d).sha1 = h (substring src d.startPos d.endPos) := rfl

theorem commentUnitOf_sha1 (h : Hash) (src rel : Str) (r : CommentRange) :
    (commentUnitOf h src rel r).sha1 = h (substring src r.pos r.endPos) := rfl

theorem blankUnitOf_sha1 (h : Hash) (rel : Str) (n : ℕ) (t : Str) :
    (blankUnitOf h rel n t).sha1 = h ("blank:".toList ++ (Nat.repr n).toList) := rfl

/-- An in-place one-byte edit at position `p`. -/
def OneByteDiff (src srcE : Str) (p : ℕ) : Prop :=
  p < src.length ∧ ∃ c : Char, srcE = src.set p c ∧ src[p]? ≠ some c

theorem substring_eq_of_outside (src : Str) (p : ℕ) (c : Char) (a b : ℕ)
    (houts : p < a ∨ b ≤ p) : substring (src.set p c) a b = substring src a b := by
  unfold substring
  refine List.ext_getElem? fun i => ?_
  rw [List.getElem?_drop, List.getElem?_drop, List.getElem?_take, List.getElem?_take]
  split
  · next hib =>
    have hne : p ≠ a + i := by omega
    rw [List.getElem?_set_ne hne]
  · rfl

theorem substring_ne_of_inside (src : Str) (p : ℕ) (c : Char) (a b : ℕ)
    (hp : p < src.length) (hc : src[p]? ≠ some c) (ha : a ≤ p) (hb : p < b) :
    substring (src.set p c) a b ≠ substring src a b := by
  intro heq
  have h1 := congrArg (fun l => l[p - a]?) heq
  simp only at h1
  unfold substring at h1
  rw [List.getElem?_drop, List.getElem?_drop, List.getElem?_take, List.getElem?_take] at h1
  have hap : a + (p - a) = p := by omega
  rw [hap, if_pos (by omega : p < b), if_pos (by omega : p < b)] at h1
  have hset : (src.set p c)[p]? = some c := by
    simp [List.getElem?_set_self, hp]
  rw [hset] at h1
  exact hc h1.symm

/-- C1 counterexample: the one-line whitespace sources `" "` and `"\t"`
differ by one byte inside the blank unit's span (line 1, columns 1–2),
yet each scan yields a single `BlankLine` unit whose digest input (made
visible by the identity digest) is the sentinel `"blank:1"` in both
cases — the blank unit's hash is not a digest of the source slice and
does not change under the in-span edit. -/
theorem c1_counterexample :
    " ".toList ≠ "\t".toList ∧
    (scan (fun s => s) trivialNode " ".toList "a.ts".toList).syntaxUnits.map
        (fun u => (u.type, u.startLine, u.startColumn, u.endLine, u.endColumn, u.sha1)) =
      [("BlankLine".toList, 1, 1, 1, 2, "blank:1".toList)] ∧
    (scan (fun s => s) trivialNode "\t".toList "a.ts".toList).syntaxUnits.map
        (fun u => (u.type, u.startLine, u.startColumn, u.endLine, u.endColumn, u.sha1)) =
      [("BlankLine".toList, 1, 1, 1, 2, "blank:1".toList)] :=
  ⟨by decide, by decide, by decide⟩

/-- C1 (amended): declaration and comment units digest the exact,
unnormalized source slice they span — under a collision-free digest, a
one-byte change inside the span changes the unit's hash, and an in-place
edit strictly outside the span (in particular strictly inside an
uncovered or blank region) changes no declaration or comment unit's
hash.  Blank-line filler units digest the sentinel `blank:{lineNum}`
instead, which depends only on the line number, so an in-span edit that
keeps the line blank leaves their hash unchanged. -/
theorem c1_amended_hash_slice_discipline (h : Hash) (hinj : Function.Injective h)
    (src srcE rel : Str) (p : ℕ) (hdiff : OneByteDiff src srcE p) :
    (∀ d : NodeData, d.startPos ≤ p → p < d.endPos →
      (extractUnit h srcE rel d).sha1 ≠ (extractUnit h src rel d).sha1) ∧
    (∀ d : NodeData, p < d.startPos ∨ d.endPos ≤ p →
      (extractUnit h srcE rel d).sha1 = (extractUnit h src rel d).sha1) ∧
    (∀ r : CommentRange, r.pos ≤ p → p < r.endPos →
      (commentUnitOf h srcE rel r).sha1 ≠ (commentUnitOf h src rel r).sha1) ∧
    (∀ r : CommentRange, p < r.pos ∨ r.endPos ≤ p →
      (commentUnitOf h srcE rel r).sha1 = (commentUnitOf h src rel r).sha1) ∧
    (∀ (lineNum : ℕ) (lineText lineTextE : Str),
      (blankUnitOf h rel lineNum lineTextE).sha1 =
        (blankUnitOf h rel lineNum lineText).sha1) := by
  obtain ⟨hp, c, rfl, hc⟩ := hdiff
  refine ⟨?_, ?_, ?_, ?_, fun _ _ _ => rfl⟩
  · intro d h1 h2
    rw [extractUnit_sha1, extractUnit_sha1]
    exact fun hh =>
      substring_ne_of_inside src p c d.startPos d.endPos hp hc h1 h2 (hinj hh)
  · intro d hout
    rw [extractUnit_sha1, extractUnit_sha1,
      substring_eq_of_outside src p c d.startPos d.endPos hout]
  · intro r h1 h2
    rw [commentUnitOf_sha1, commentUnitOf_sha1]
    exact fun hh =>
      substring_ne_of_inside src p c r.pos r.endPos hp hc h1 h2 (hinj hh)
  · intro r hout
    rw [commentUnitOf_sha1, commentUnitOf_sha1,
      substring_eq_of_outside src p c r.pos r.endPos hout]

/-- A declaration node spanning offsets `[0, 2)` of a two-byte source. -/
def spanNodeData : NodeData :=
  { kind := .functionDeclaration, startPos := 0, endPos := 2, fullStart := 0,
    nameText := some "f".toList, leading := [] }

/-- C1 (amended) witness: editing byte 1 of `"ab"` into `"ax"` changes the
hash of the declaration unit spanning offsets `[0, 2)`. -/
theorem c1_amended_witness :
    OneByteDiff "ab".toList "ax".toList 1 ∧
    (extractUnit (fun s => s) "ax".toList "r".toList spanNodeData).sha1 ≠
      (extractUnit (fun s => s) "ab".toList "r".toList spanNodeData).sha1 :=
  have hdiff : OneByteDiff "ab".toList "ax".toList 1 := ⟨by decide, 'x', rfl, by decide⟩
  ⟨hdiff,
    (c1_amended_hash_slice_discipline (fun s => s) (fun _ _ hh => hh) "ab".toList
      "ax".toList "r".toList 1 hdiff).1 spanNodeData (by decide) (by decide)⟩

/-! ## C2 — missing workspace root -/

/-- C2 evaluation at the failing input: with the workspace root missing
(`fs.readdirSync` throws at the root), the collector's `try`/`catch`
swallows the error, and `runCodeScan` returns a successful empty
`ScanResult` — `totalFiles = 0`, no files — instead of surfacing a hard
failure to the caller. -/
theorem c2_missing_root_returns_empty_result :
    runCodeScan (fun s => s) trivialParse
        { workspacePath := "/missing".toList, root := .unreadable,
          tmpWritable := true, durableWritable := true } "t0".toList =
      .ok { workspacePath := "/missing".toList, scannedAt := "t0".toList,
            totalFiles := 0, files := [] } := rfl

/-! ## C8 — durable-persistence failure -/

/-- C8 evaluation at the failing input: when the durable write to
`{workspace}/.ockham/codescan-result.json` fails, `runCodeScan` throws
after fully computing the result — the caller receives an exception on
the same channel as any scan failure and never the valid in-memory
`ScanResult`, which the identical workspace yields when the write
succeeds. -/
theorem c8_durable_write_failure_loses_result :
    runCodeScan (fun s => s) trivialParse
        { workspacePath := "/w".toList, root := sampleFS,
          tmpWritable := true, durableWritable := false } "t0".toList =
      .error .durableWriteFailed ∧
    runCodeScan (fun s => s) trivialParse
        { workspacePath := "/w".toList, root := sampleFS,
          tmpWritable := true, durableWritable := true } "t0".toList =
      .ok { workspacePath := "/w".toList, scannedAt := "t0".toList,
            totalFiles := 1, files := [sampleEntry] } :=
  ⟨rfl, rfl⟩

end CodeScan
